import Mathlib

/-!
# Verification of the duplicate-media scanner

Shallow embedding of the duplicate-file / duplicate-directory scanner found in
`FindAndDedupeWeb.h` (the "web" variant, structural directory mode) and
`FindDuplicateImageAndVideos.h` (the "CLI" variant, content-multiset directory
mode), together with proofs of the specification claims about it.

Modelling conventions:
* file contents are `List Nat` (byte values); sizes are `Nat` (the C++
  `uintmax_t` values are far below any overflow in the scanner);
* 64-bit arithmetic of the FNV-1a hasher is `Nat` arithmetic taken `% 2^64`;
* the filesystem walk is modelled by its observable outcome: the ordered list
  of in-scope (media) files the iterator yields, plus per-file flags telling
  whether a size query (`sizeOk`) or an open/read (`readOk`) succeeds — the
  walker itself (extension filtering, recursion order) is outside every claim;
* `std::unordered_map` bucket maps are modelled as association lists in
  first-insertion order (a legal iteration order for `unordered_map`); the
  `std::map by_size` is modelled the same way — its ascending-key iteration
  order is a permutation of this, and no claim below depends on the order in
  which size buckets are visited (the final group lists are sorted afresh);
* `std::sort` with a strict weak comparator is modelled by `List.insertionSort`
  with the induced non-strict relation; wherever the comparator is a total
  antisymmetric order the C++ result is uniquely determined and the model is
  exact, elsewhere every C++ outcome is sorted for the same relation, which is
  the property the claims state.
-/

namespace Dedupe

/-! ## FNV-1a 64 (struct FNV1a64 in both variants) -/

/-- 2^64, the modulus of the C++ `std::uint64_t` arithmetic. -/
def M64 : Nat := 18446744073709551616

/-- FNV-1a 64 offset basis (`FNV1a64::offset`). -/
def fnvOffset : Nat := 1469598103934665603

/-- FNV-1a 64 prime (`FNV1a64::prime`). -/
def fnvPrime : Nat := 1099511628211

/-- One step of `FNV1a64::update`: `h ^= byte; h *= prime;` on `uint64_t`. -/
def fnvByte (h b : Nat) : Nat := ((h ^^^ b) * fnvPrime) % M64

/-- `FNV1a64::update(d, n)`: fold every byte through `fnvByte`. -/
def fnvUpdate (h : Nat) (bs : List Nat) : Nat := bs.foldl fnvByte h

/-- The 8 little-endian bytes of a 64-bit value, as built by `update_u64`. -/
def leBytes (v : Nat) : List Nat := (List.range 8).map (fun i => (v >>> (8 * i)) % 256)

/-- `FNV1a64::update_u64`: feed the 8 little-endian bytes of `v`. -/
def fnvUpdateU64 (h v : Nat) : Nat := fnvUpdate h (leBytes v)

/-- Bytes of a (path) string as hashed by `H.update(rel.data(), rel.size())`;
paths are ASCII in every claim instance, where `Char.toNat` equals the UTF-8
byte. -/
def strBytes (s : String) : List Nat := s.data.map Char.toNat

/-- Byte-lexicographic order on path strings — the order in which `std::sort`
compares the `std::string`/`fs::path` values of the source (stated on
`String.data` so that concrete comparisons evaluate inside the kernel). -/
def pathLt (a b : String) : Prop := a.data < b.data

instance : DecidableRel pathLt :=
  fun a b => inferInstanceAs (Decidable (a.data < b.data))

/-- Non-strict byte-lexicographic path order. -/
def pathLe (a b : String) : Prop := pathLt a b ∨ a = b

instance : DecidableRel pathLe :=
  fun a b => inferInstanceAs (Decidable (pathLt a b ∨ a = b))

theorem string_eq_of_data {a b : String} (h : a.data = b.data) : a = b := by
  cases a; cases b; exact congrArg String.mk h

theorem pathLt_trichotomy (a b : String) : pathLt a b ∨ a = b ∨ pathLt b a := by
  rcases lt_trichotomy a.data b.data with h | h | h
  · exact Or.inl h
  · exact Or.inr (Or.inl (string_eq_of_data h))
  · exact Or.inr (Or.inr h)

theorem pathLt_trans {a b c : String} (h1 : pathLt a b) (h2 : pathLt b c) :
    pathLt a c :=
  lt_trans h1 h2

theorem pathLt_irrefl (a : String) : ¬ pathLt a a := lt_irrefl a.data

theorem pathLe_total (a b : String) : pathLe a b ∨ pathLe b a := by
  rcases pathLt_trichotomy a b with h | h | h
  · exact Or.inl (Or.inl h)
  · exact Or.inl (Or.inr h)
  · exact Or.inr (Or.inl h)

theorem pathLe_trans {a b c : String} (h1 : pathLe a b) (h2 : pathLe b c) :
    pathLe a c := by
  rcases h1 with h1 | rfl
  · rcases h2 with h2 | rfl
    · exact Or.inl (pathLt_trans h1 h2)
    · exact Or.inl h1
  · exact h2

theorem pathLe_antisymm {a b : String} (h1 : pathLe a b) (h2 : pathLe b a) :
    a = b := by
  rcases h1 with h1 | h1
  · rcases h2 with h2 | h2
    · exact absurd (pathLt_trans h1 h2) (pathLt_irrefl a)
    · exact h2.symm
  · exact h1

instance : IsTotal String pathLe := ⟨pathLe_total⟩

instance : IsTrans String pathLe := ⟨fun _ _ _ => pathLe_trans⟩

instance : IsAntisymm String pathLe := ⟨fun _ _ => pathLe_antisymm⟩

theorem fnvByte_lt (h b : Nat) : fnvByte h b < M64 := by
  unfold fnvByte
  exact Nat.mod_lt _ (by norm_num [M64])

theorem fnvUpdate_lt (bs : List Nat) (h : Nat) (hh : h < M64) : fnvUpdate h bs < M64 := by
  induction bs generalizing h with
  | nil => exact hh
  | cons b bs ih =>
      have : fnvByte h b < M64 := fnvByte_lt h b
      simpa [fnvUpdate] using ih (fnvByte h b) this

/-! ## Generic bucket maps

`std::unordered_map<K, std::vector<A>>` with the access pattern
`m[k].push_back(x)` is an association list whose entry for `k` gets `x`
appended, created at the end on first use.  `lk` is bucket lookup. -/

section Buckets

variable {κ : Type} {α : Type} [DecidableEq κ]

/-- Bucket lookup: the vector `m[k]` (empty when absent). -/
def lk (m : List (κ × List α)) (k : κ) : List α :=
  match m with
  | [] => []
  | (k', l) :: rest => if k = k' then l else lk rest k

/-- `m[k].push_back(x)`: append to the first entry with key `k`, or create the
entry at the end. -/
def insRec (m : List (κ × List α)) (k : κ) (x : α) : List (κ × List α) :=
  match m with
  | [] => [(k, [x])]
  | (k', l) :: rest => if k = k' then (k', l ++ [x]) :: rest else (k', l) :: insRec rest k x

/-- Run a filtered bucketing loop: `for x in l: if ok x then m[key x].push_back x`. -/
def buildRec (key : α → κ) (ok : α → Bool) (l : List α) : List (κ × List α) :=
  l.foldl (fun m x => if ok x then insRec m (key x) x else m) []

theorem lk_insRec (m : List (κ × List α)) (k' k : κ) (x : α) :
    lk (insRec m k' x) k = if k = k' then lk m k ++ [x] else lk m k := by
  induction m with
  | nil =>
      by_cases hk : k = k' <;> simp [insRec, lk, hk]
  | cons e rest ih =>
      obtain ⟨k₀, l₀⟩ := e
      by_cases h1 : k' = k₀
      · subst h1
        by_cases h2 : k = k' <;> simp [insRec, lk, h2]
      · by_cases h2 : k = k₀
        · subst h2
          simp [insRec, lk, h1, Ne.symm h1]
        · simp [insRec, lk, h1, h2, ih]

theorem lk_foldl (key : α → κ) (ok : α → Bool) (l : List α) (m : List (κ × List α)) (k : κ) :
    lk (l.foldl (fun m x => if ok x then insRec m (key x) x else m) m) k
      = lk m k ++ l.filter (fun x => ok x && decide (key x = k)) := by
  induction l generalizing m with
  | nil => simp
  | cons a l ih =>
      by_cases ha : ok a
      · by_cases hk : key a = k
        · simp only [List.foldl_cons, ha, if_pos, List.filter_cons]
          rw [ih]
          simp [lk_insRec, ha, hk, List.append_assoc]
        · simp only [List.foldl_cons, ha, if_pos, List.filter_cons]
          rw [ih]
          have hk2 : ¬k = key a := fun he => hk he.symm
          simp [lk_insRec, ha, hk, hk2]
      · simp only [List.foldl_cons, ha]
        rw [if_neg (by simp [ha]), ih]
        simp [ha]

theorem lk_buildRec (key : α → κ) (ok : α → Bool) (l : List α) (k : κ) :
    lk (buildRec key ok l) k = l.filter (fun x => ok x && decide (key x = k)) := by
  simpa [buildRec] using lk_foldl key ok l [] k

/-- The first entry holding key `k` really is `(k, lk m k)` whenever the bucket
is non-empty. -/
theorem lk_mem (m : List (κ × List α)) (k : κ) (h : lk m k ≠ []) : (k, lk m k) ∈ m := by
  induction m with
  | nil => simp [lk] at h
  | cons e rest ih =>
      obtain ⟨k₀, l₀⟩ := e
      by_cases hk : k = k₀
      · subst hk
        simp [lk]
      · simp only [lk, if_neg hk] at h ⊢
        exact List.mem_cons_of_mem _ (ih h)

/-- Keys of `insRec`: unchanged if present, appended if new. -/
theorem keys_insRec (m : List (κ × List α)) (k : κ) (x : α) :
    (insRec m k x).map Prod.fst
      = if k ∈ m.map Prod.fst then m.map Prod.fst else m.map Prod.fst ++ [k] := by
  induction m with
  | nil => simp [insRec]
  | cons e rest ih =>
      obtain ⟨k₀, l₀⟩ := e
      by_cases hk : k = k₀
      · subst hk
        simp [insRec]
      · simp only [insRec, if_neg hk, List.map_cons, ih]
        by_cases hm : k ∈ rest.map Prod.fst <;>
          simp [hm, List.mem_cons, hk]

theorem nodup_keys_insRec (m : List (κ × List α)) (k : κ) (x : α)
    (h : (m.map Prod.fst).Nodup) : ((insRec m k x).map Prod.fst).Nodup := by
  rw [keys_insRec]
  by_cases hk : k ∈ m.map Prod.fst
  · simpa [hk]
  · simpa [hk] using List.Nodup.append h (List.nodup_singleton k) (by simpa using hk)

theorem nodup_keys_buildRec (key : α → κ) (ok : α → Bool) (l : List α) :
    ((buildRec key ok l).map Prod.fst).Nodup := by
  have H : ∀ (l : List α) (m : List (κ × List α)), (m.map Prod.fst).Nodup →
      (((l.foldl (fun m x => if ok x then insRec m (key x) x else m) m)).map Prod.fst).Nodup := by
    intro l
    induction l with
    | nil => intro m hm; simpa using hm
    | cons a l ih =>
        intro m hm
        by_cases ha : ok a
        · simpa [ha] using ih _ (nodup_keys_insRec m (key a) a hm)
        · simpa [ha] using ih _ hm
  simpa [buildRec] using H l [] (by simp)

/-- In a map with `Nodup` keys, each stored entry is exactly the lookup. -/
theorem eq_lk_of_mem {m : List (κ × List α)} (hn : (m.map Prod.fst).Nodup)
    {k : κ} {l : List α} (h : (k, l) ∈ m) : lk m k = l := by
  induction m with
  | nil => simp at h
  | cons e rest ih =>
      obtain ⟨k₀, l₀⟩ := e
      rw [List.map_cons, List.nodup_cons] at hn
      rw [List.mem_cons] at h
      rcases h with h | h
      · rw [Prod.mk.injEq] at h
        obtain ⟨rfl, rfl⟩ := h
        simp [lk]
      · have hk : k ≠ k₀ := by
          rintro rfl
          exact hn.1 (List.mem_map.2 ⟨(k, l), h, rfl⟩)
        simp only [lk, if_neg hk]
        exact ih hn.2 h

/-- Every entry of `buildRec` is the filter of the input at its key. -/
theorem mem_buildRec (key : α → κ) (ok : α → Bool) (l : List α) {k : κ} {bl : List α}
    (h : (k, bl) ∈ buildRec key ok l) :
    bl = l.filter (fun x => ok x && decide (key x = k)) := by
  have := eq_lk_of_mem (nodup_keys_buildRec key ok l) h
  rw [← this, lk_buildRec]

end Buckets

/-! ## Files and file-level primitives (web variant `FindAndDedupeWeb.h`) -/

/-- An in-scope (media) file as the tree walk yields it. `sizeOk` models
whether `fs::file_size` succeeds for it, `readOk` whether opening and reading
it succeeds; contents are the byte sequence on disk. -/
structure MFile where
  path : String
  content : List Nat
  sizeOk : Bool := true
  readOk : Bool := true
  deriving Repr, DecidableEq

/-- The byte size reported by a successful `fs::file_size`. -/
def MFile.size (f : MFile) : Nat := f.content.length

/-- `hash_file_full`: FNV-1a over the whole content (value on success). -/
def fullHash (c : List Nat) : Nat := fnvUpdate fnvOffset c

/-- The 64 KiB chunk size of `hash_file_quick`. -/
def CHUNK : Nat := 65536

/-- `hash_file_quick` (value on success): size, then the first
`min(CHUNK, size)` bytes, then — only when `size > CHUNK` — the last `CHUNK`
bytes. -/
def quickHash (c : List Nat) : Nat :=
  let sz := c.length
  let h1 := fnvUpdateU64 fnvOffset sz
  let h2 := fnvUpdate h1 (c.take (min CHUNK sz))
  if sz > CHUNK then fnvUpdate h2 (c.drop (sz - CHUNK)) else h2

/-- Outcome of `files_equal(a, b, err)`: `true`, `false` with no error, or a
failure with the message written into `err`. -/
inductive CmpRes where
  | yes : CmpRes
  | no : CmpRes
  | err (msg : String) : CmpRes
  deriving Repr, DecidableEq

/-- `files_equal`: compare sizes first (a size-query failure is an error, a
size mismatch a clean `false`), then open both and compare bytes. -/
def filesEqual (a b : MFile) : CmpRes :=
  if !a.sizeOk then .err "filesize A"
  else if !b.sizeOk then .err "filesize B"
  else if a.size ≠ b.size then .no
  else if !(a.readOk && b.readOk) then .err "open"
  else if a.content = b.content then .yes else .no

/-- A per-entry failure record (`struct ErrorNote`). -/
structure ErrorNote where
  path : String
  what : String
  deriving Repr, DecidableEq

/-- A confirmed duplicate-file group (`struct FileGroup`). -/
structure FileGroup where
  size : Nat
  paths : List String
  deriving Repr, DecidableEq

/-- A duplicate-directory group (`struct DirGroup`). -/
structure DirGroup where
  file_count : Nat
  dir_sig : Nat
  dirs : List String
  deriving Repr, DecidableEq

/-! ## Confirmation classes (run_scan step 2, the `classes` loop) -/

/-- An equivalence class being built during confirmation: the C++ code keeps a
non-empty `vector`, compares against `cls.front()` and pushes joiners at the
back. -/
structure Cls where
  front : MFile
  rest : List MFile
  deriving Repr, DecidableEq

/-- All members of a class, representative first. -/
def Cls.members (c : Cls) : List MFile := c.front :: c.rest

/-- Body of the placement loop for one candidate `p`: scan the classes in
order; join the first one whose representative compares byte-equal; a compare
error is recorded and the scan moves on. Returns the updated classes, whether
`p` was placed, and the error notes produced. -/
def placeIn (p : MFile) : List Cls → List Cls × Bool × List ErrorNote
  | [] => ([], false, [])
  | c :: cs =>
    match filesEqual p c.front with
    | .yes => ((⟨c.front, c.rest ++ [p]⟩ : Cls) :: cs, true, [])
    | .no =>
        let r := placeIn p cs
        (c :: r.1, r.2.1, r.2.2)
    | .err m =>
        let r := placeIn p cs
        (c :: r.1, r.2.1, ⟨p.path, "compare: " ++ m⟩ :: r.2.2)

/-- The whole confirmation loop over one full-hash bucket `vec`: place every
candidate, opening a fresh class when nothing matched. -/
def buildClasses (vec : List MFile) : List Cls × List ErrorNote :=
  vec.foldl (fun acc p =>
      let r := placeIn p acc.1
      (if r.2.1 then r.1 else r.1 ++ [⟨p, []⟩], acc.2 ++ r.2.2))
    ([], [])

/-! ## run_scan step 2: one size bucket -/

/-- `hash_file_quick` succeeds iff both the size query and the open/read do. -/
def quickOk (f : MFile) : Bool := f.sizeOk && f.readOk

/-- The note `{p, "quick hash: " + err}` for a failing file. -/
def quickErrNote (f : MFile) : ErrorNote :=
  ⟨f.path, "quick hash: " ++ (if f.sizeOk then "cannot open" else "filesize error")⟩

/-- Everything one size bucket contributes: groups, `file_infos` entries,
error notes and the number of fully hashed files. -/
structure BucketOut where
  groups : List FileGroup
  infos : List (String × Nat × Nat)
  errs : List ErrorNote
  scanned : Nat
  deriving Repr, DecidableEq

/-- The `by_quick` map of one size bucket. -/
def bucketQuick (paths : List MFile) : List (Nat × List MFile) :=
  buildRec (fun f => quickHash f.content) quickOk paths

/-- The sequence of files the full-hash loop visits: the quick buckets in
order (note the verbatim `kv.second.size() < 1` guard of the source),
flattened. -/
def bucketBfInput (paths : List MFile) : List MFile :=
  (((bucketQuick paths).filter (fun kv => !(kv.2.length < 1))).map Prod.snd).flatten

/-- The `by_full` map of one size bucket. -/
def bucketByFull (paths : List MFile) : List (Nat × List MFile) :=
  buildRec (fun f => fullHash f.content) (fun f => f.readOk) (bucketBfInput paths)

/-- The confirmed groups one size bucket emits: full-hash buckets of ≥ 2 are
partitioned into byte-equality classes, classes of ≥ 2 become groups. -/
def bucketGroups (sz : Nat) (paths : List MFile) : List FileGroup :=
  ((bucketByFull paths).map (fun kv =>
    if kv.2.length < 2 then ([] : List FileGroup)
    else ((buildClasses kv.2).1.filter (fun c => 2 ≤ c.members.length)).map
        (fun c => (⟨sz, c.members.map MFile.path⟩ : FileGroup)))).flatten

/-- The compare error notes of the confirmation loop of one size bucket. -/
def bucketCmpErrs (paths : List MFile) : List ErrorNote :=
  ((bucketByFull paths).map (fun kv =>
    if kv.2.length < 2 then ([] : List ErrorNote)
    else (buildClasses kv.2).2)).flatten

/-- Process one size bucket `(sz, paths)` exactly as the body of
`for (const auto& [sz, paths] : by_size)` does: quick-hash bucketing, full
hashing, then byte-compare confirmation. -/
def processBucket (sz : Nat) (paths : List MFile) : BucketOut :=
  ⟨bucketGroups sz paths,
   ((bucketBfInput paths).filter (fun f => f.readOk)).map
     (fun f => (f.path, sz, fullHash f.content)),
   ((paths.filter (fun f => !quickOk f)).map quickErrNote)
     ++ (((bucketBfInput paths).filter (fun f => !f.readOk)).map
           (fun f => (⟨f.path, "full hash: cannot open"⟩ : ErrorNote)))
     ++ bucketCmpErrs paths,
   ((bucketBfInput paths).filter (fun f => f.readOk)).length⟩

/-! ## run_scan step 3: directory signatures -/

/-- One media file found under a directory during the per-directory recursive
walk: its path relative to that directory (`fs::relative(...).generic_string()`,
already forward-slash normalized) and the file itself. -/
structure WDirEntry where
  rel : String
  file : MFile
  deriving Repr, DecidableEq

/-- A directory collected into `all_dirs`, with the outcome of its own
recursive iteration: `iterOk` models the iterator construction error that makes
the code `continue`, `files` the media files the walk yields beneath it. -/
structure WDir where
  path : String
  iterOk : Bool := true
  files : List WDirEntry
  deriving Repr, DecidableEq

instance : Inhabited WDir := ⟨⟨"", true, []⟩⟩

/-- `file_infos.find(p)`: path-keyed lookup of `(size, full_hash)`. Paths are
unique on a real filesystem, so the association list built by appending equals
the C++ `unordered_map` built by assignment. -/
def lookupInfo (infos : List (String × Nat × Nat)) (p : String) : Option (Nat × Nat) :=
  match infos with
  | [] => none
  | (q, sz, fh) :: rest => if p = q then some (sz, fh) else lookupInfo rest p

/-- Per dir-walk entry: reuse `file_infos` when present, else query the size
and hash afresh; failures yield an error note and drop the entry. -/
def dirEntryOut (infos : List (String × Nat × Nat)) (e : WDirEntry) :
    Option (String × Nat × Nat) × List ErrorNote :=
  match lookupInfo infos e.file.path with
  | some (sz, fh) => (some (e.rel, sz, fh), [])
  | none =>
      if e.file.sizeOk then
        if e.file.readOk then
          (some (e.rel, e.file.size, fullHash e.file.content), [])
        else (none, [⟨e.file.path, "dir sig full hash: cannot open"⟩])
      else (none, [⟨e.file.path, "fs size for dir sig"⟩])

/-- The `(relpath, size, fullhash)` tuples gathered for one directory. -/
def dirEntries (infos : List (String × Nat × Nat)) (d : WDir) :
    List (String × Nat × Nat) :=
  d.files.filterMap (fun e => (dirEntryOut infos e).1)

/-- The error notes the gathering loop for one directory produces (none when
its iterator cannot even be constructed: the code just `continue`s). -/
def dirErrs (infos : List (String × Nat × Nat)) (d : WDir) : List ErrorNote :=
  if d.iterOk then (d.files.map (fun e => (dirEntryOut infos e).2)).flatten else []

/-- The comparator the signature entries are sorted with: lexicographic by
relative path, then size, then full hash (non-strict closure of the strict
`std::sort` comparator). -/
def tupLe (A B : String × Nat × Nat) : Prop :=
  pathLt A.1 B.1 ∨
    (A.1 = B.1 ∧ (A.2.1 < B.2.1 ∨ (A.2.1 = B.2.1 ∧ A.2.2 ≤ B.2.2)))

instance : DecidableRel tupLe := fun A B => by unfold tupLe; infer_instance

/-- Folding one sorted tuple into the hasher: relative-path bytes, then the
size, then the full hash. -/
def foldTuple (h : Nat) (t : String × Nat × Nat) : Nat :=
  fnvUpdateU64 (fnvUpdateU64 (fnvUpdate h (strBytes t.1)) t.2.1) t.2.2

/-- The structural directory signature of the web variant: sort the gathered
tuples, then fold each into a fresh hasher. (No file count or byte total is
folded.) -/
def webDirSig (entries : List (String × Nat × Nat)) : Nat :=
  (List.insertionSort tupLe entries).foldl foldTuple fnvOffset

/-- The representative file count shown for a duplicate-directory group:
re-walk the first directory of the bucket and count its media files (errors
ignored, broken files included). -/
def countMedia (d : WDir) : Nat := if d.iterOk then d.files.length else 0

/-- Turn the signature buckets into groups: buckets of at least two
directories survive, labelled with the first directory's media count. -/
def dirGroupsOf (buckets : List (Nat × List WDir)) : List DirGroup :=
  (buckets.filter (fun kv => !(kv.2.length < 2))).map
    (fun kv => ⟨countMedia kv.2.headI, kv.1, kv.2.map WDir.path⟩)

/-! ## run_scan: the whole pipeline -/

/-- The final ordering of file groups: size descending, then member count
descending (non-strict closure of the `std::sort` comparator). -/
def fgRel (a b : FileGroup) : Prop :=
  b.size < a.size ∨ (a.size = b.size ∧ b.paths.length ≤ a.paths.length)

instance : DecidableRel fgRel := fun a b => by unfold fgRel; infer_instance

/-- The final ordering of directory groups: file count descending, then member
count descending. -/
def dgRel (a b : DirGroup) : Prop :=
  b.file_count < a.file_count ∨
    (a.file_count = b.file_count ∧ b.dirs.length ≤ a.dirs.length)

instance : DecidableRel dgRel := fun a b => by unfold dgRel; infer_instance

/-- The observable behaviour of one call to `run_scan(root)`: the filesystem
is given by whether the root exists, whether the recursive iterator can be
constructed, the media files the walk yields (in iteration order) and the
directory list with each directory's own recursive file listing. -/
structure ScanInput where
  rootPath : String
  rootExists : Bool := true
  iterOk : Bool := true
  files : List MFile
  dirs : List WDir
  deriving Repr, DecidableEq

/-- `struct ScanResult` (the wall-clock field is omitted; `dir_buckets` — the
local map the groups are formed from — is exposed for the statements below). -/
structure ScanResult where
  file_groups : List FileGroup
  dir_groups : List DirGroup
  dir_buckets : List (Nat × List String)
  errors : List ErrorNote
  candidate_files : Nat
  scanned_files : Nat
  deriving Repr, DecidableEq

/-- The `by_size` map after the removal loop. The removal loop is the
source's "Remove singletons by size", which erases buckets with
`it->second.size() < 1` — kept verbatim here. -/
def webBySize (I : ScanInput) : List (Nat × List MFile) :=
  (buildRec MFile.size MFile.sizeOk I.files).filter (fun kv => !(kv.2.length < 1))

/-- The per-size-bucket outputs of run_scan step 2, in bucket order. -/
def webOuts (I : ScanInput) : List BucketOut :=
  (webBySize I).map (fun kv => processBucket kv.1 kv.2)

/-- The `file_infos` map after step 2 (association list; path-keyed). -/
def scanInfos (I : ScanInput) : List (String × Nat × Nat) :=
  ((webOuts I).map BucketOut.infos).flatten

/-- The `file_groups` vector before the final sort. -/
def rawFileGroups (I : ScanInput) : List FileGroup :=
  ((webOuts I).map BucketOut.groups).flatten

/-- The `dir_buckets` map of step 3. -/
def webDirBuckets (I : ScanInput) : List (Nat × List WDir) :=
  buildRec (fun d => webDirSig (dirEntries (scanInfos I) d))
    (fun d => d.iterOk && !(dirEntries (scanInfos I) d).isEmpty) I.dirs

/-- `run_scan`, web variant. -/
def run_scan (I : ScanInput) : ScanResult :=
  if !I.rootExists then
    ⟨[], [], [], [⟨I.rootPath, "root missing"⟩], 0, 0⟩
  else if !I.iterOk then
    ⟨[], [], [], [⟨I.rootPath, "cannot iterate"⟩], 0, 0⟩
  else
    ⟨List.insertionSort fgRel (rawFileGroups I),
     List.insertionSort dgRel (dirGroupsOf (webDirBuckets I)),
     (webDirBuckets I).map (fun kv => (kv.1, kv.2.map WDir.path)),
     ((I.files.filter (fun f => !f.sizeOk)).map
         (fun f => (⟨f.path, "filesize error"⟩ : ErrorNote)))
       ++ ((webOuts I).map BucketOut.errs).flatten
       ++ (I.dirs.map (dirErrs (scanInfos I))).flatten,
     ((webBySize I).map (fun kv => kv.2.length)).sum,
     ((webOuts I).map BucketOut.scanned).sum⟩

/-! ## CLI variant (`FindDuplicateImageAndVideos.h`), content-multiset mode -/

/-- A media file as the CLI gather loop meets it: content, I/O flags, and the
chain of ancestor directories inside the root that the
`while (!dir.empty() && is_subpath_of(root, dir))` loop walks for it
(innermost parent first). -/
structure CFile where
  path : String
  content : List Nat
  sizeOk : Bool := true
  readOk : Bool := true
  dirs : List String := []
  deriving Repr, DecidableEq

/-- `struct FileRec` after the gather loop filled it. -/
structure FileRec where
  path : String
  content : List Nat
  readOk : Bool
  size : Nat
  hash : Nat
  ok : Bool
  dirs : List String
  deriving Repr, DecidableEq

/-- Fill one `FileRec` (size query already succeeded). -/
def gatherRec (f : CFile) : FileRec :=
  ⟨f.path, f.content, f.readOk, f.content.length,
   if f.readOk then fullHash f.content else 0, f.readOk, f.dirs⟩

/-- The gather loop (CLI main, step 1): a size-query failure records a note and
drops the file; a hash failure records a note but keeps the record with
`ok = false`. -/
def gather (l : List CFile) : List FileRec × List ErrorNote :=
  ((l.filter (fun f => f.sizeOk)).map gatherRec,
   l.filterMap (fun f =>
     if !f.sizeOk then some ⟨f.path, "filesize error"⟩
     else if !f.readOk then some ⟨f.path, "hash: cannot open"⟩ else none))

/-- CLI step 2: bucket the `ok` records by `(size, hash)`. -/
def fileBuckets (files : List FileRec) : List ((Nat × Nat) × List FileRec) :=
  buildRec (fun fr => (fr.size, fr.hash)) (fun fr => fr.ok) files

/-- `files_equal` on gathered records (their size queries succeeded; reads
succeed iff `readOk`). -/
def filesEqualR (a b : FileRec) : CmpRes :=
  if a.content.length ≠ b.content.length then .no
  else if !(a.readOk && b.readOk) then .err "open error"
  else if a.content = b.content then .yes else .no

/-- Confirm one `(size, hash)` bucket against its first member: the loop
`for i in 1..vec.size)` keeps byte-equal files and notes compare errors. -/
def confirmOne (vec : List FileRec) : List FileRec × List ErrorNote :=
  match vec with
  | [] => ([], [])
  | v0 :: rest =>
      (v0 :: rest.filter (fun v => filesEqualR v v0 == .yes),
       rest.filterMap (fun v =>
         match filesEqualR v v0 with
         | .err m => some ⟨v.path, "compare: " ++ m⟩
         | _ => none))

/-- CLI duplicate-file groups before the final report sort: buckets of ≥ 2,
confirmed members ≥ 2, member paths sorted ascending (`std::sort(confirmed)`). -/
def cliFileGroupsRaw (files : List FileRec) : List FileGroup × List ErrorNote :=
  let outs := (fileBuckets files).map (fun kv =>
    if kv.2.length < 2 then (([] : List FileGroup), ([] : List ErrorNote))
    else
      let r := confirmOne kv.2
      (if 2 ≤ r.1.length then
         [(⟨kv.1.1, List.insertionSort pathLe (r.1.map FileRec.path)⟩ : FileGroup)]
       else [], r.2))
  ((outs.map Prod.fst).flatten, (outs.map Prod.snd).flatten)

/-- CLI final file-group ordering (`sort larger groups first`): member count
descending, then size descending, then first path ascending. -/
def cliFgRel (a b : FileGroup) : Prop :=
  b.paths.length < a.paths.length ∨
    (a.paths.length = b.paths.length ∧
      (b.size < a.size ∨ (a.size = b.size ∧ pathLe a.paths.headI b.paths.headI)))

instance : DecidableRel cliFgRel := fun a b => by unfold cliFgRel; infer_instance

/-- `struct DirStats`: the per-directory `(size, hash)` multiset plus running
totals; `digest` is filled later. -/
structure DirStats where
  items : List (Nat × Nat) := []
  total_bytes : Nat := 0
  file_count : Nat := 0
  digest : Nat := 0
  deriving Repr, DecidableEq, Inhabited

/-- Insert one file into a directory's stats (the three `ds.…` updates of the
accumulation loop body). -/
def DirStats.add (ds : DirStats) (sz h : Nat) : DirStats :=
  { ds with
    items := ds.items ++ [(sz, h)]
    total_bytes := ds.total_bytes + sz
    file_count := ds.file_count + 1 }

/-- `dirStats[dir]` followed by the three updates: default-construct on first
use (the `std::map` is modelled as an association list; its ascending-path
iteration order is a permutation of this insertion order, and no claim below
depends on it). -/
def updStats (m : List (String × DirStats)) (d : String) (sz h : Nat) :
    List (String × DirStats) :=
  match m with
  | [] => [(d, DirStats.add {} sz h)]
  | (d', ds) :: rest =>
      if d = d' then (d', ds.add sz h) :: rest else (d', ds) :: updStats rest d sz h

/-- Add one file's `(size, hash)` to every ancestor directory on its chain. -/
def accumFile (m : List (String × DirStats)) (fr : FileRec) : List (String × DirStats) :=
  fr.dirs.foldl (fun m d => updStats m d fr.size fr.hash) m

/-- CLI step 3, accumulation phase: every `ok` file feeds all its ancestor
directories. -/
def dirStatsOf (files : List FileRec) : List (String × DirStats) :=
  files.foldl (fun m fr => if fr.ok then accumFile m fr else m) []

/-- The item comparator of the digest loop: `(size, hash)` lexicographic. -/
def pairLe (a b : Nat × Nat) : Prop := a.1 < b.1 ∨ (a.1 = b.1 ∧ a.2 ≤ b.2)

instance : DecidableRel pairLe := fun a b => by unfold pairLe; infer_instance

/-- The CLI per-directory digest: sort the items, then fold `file_count`,
`total_bytes`, and each sorted `(size, hash)` pair into a fresh hasher. -/
def cliDigest (ds : DirStats) : Nat :=
  (List.insertionSort pairLe ds.items).foldl
    (fun h pr => fnvUpdateU64 (fnvUpdateU64 h pr.1) pr.2)
    (fnvUpdateU64 (fnvUpdateU64 fnvOffset ds.file_count) ds.total_bytes)

/-- `struct DirGroup` of the CLI variant. -/
structure CDirGroup where
  file_count : Nat
  total_bytes : Nat
  dirs : List String
  deriving Repr, DecidableEq

/-- Group directories by digest (directories with `file_count == 0` are
skipped). -/
def cliDirBuckets (stats : List (String × DirStats)) :
    List (Nat × List (String × DirStats)) :=
  buildRec (fun kv => cliDigest kv.2) (fun kv => !(kv.2.file_count == 0)) stats

/-- Buckets of ≥ 2 directories become groups: metadata from the first member,
member paths sorted ascending. -/
def cliDirGroups (stats : List (String × DirStats)) : List CDirGroup :=
  ((cliDirBuckets stats).filter (fun kv => !(kv.2.length < 2))).map (fun kv =>
    let ds0 := (kv.2.headI).2
    ⟨ds0.file_count, ds0.total_bytes, List.insertionSort pathLe (kv.2.map Prod.fst)⟩)

/-- CLI final directory-group ordering: total bytes descending, then file
count descending, then first path ascending. -/
def cliDgRel (a b : CDirGroup) : Prop :=
  b.total_bytes < a.total_bytes ∨
    (a.total_bytes = b.total_bytes ∧
      (b.file_count < a.file_count ∨
        (a.file_count = b.file_count ∧ pathLe a.dirs.headI b.dirs.headI)))

instance : DecidableRel cliDgRel := fun a b => by unfold cliDgRel; infer_instance

/-- The CLI report content: gather, group files, accumulate and group
directories, sort both group lists. -/
def cliReport (input : List CFile) :
    List FileGroup × List CDirGroup × List ErrorNote :=
  let g := gather input
  let fg := cliFileGroupsRaw g.1
  let stats := dirStatsOf g.1
  (List.insertionSort cliFgRel fg.1,
   List.insertionSort cliDgRel (cliDirGroups stats),
   g.2 ++ fg.2)

/-! ## The spec-side directory digest (refinement comparison for C5) -/

/-- Modelled from the spec: "Fold `fileCount`, `totalBytes`, then each sorted
tuple into the Hasher to obtain `digest`", the tuples being the
`(key, sizeBytes, fullDigest)` triples sorted by key, then size, then digest.
This is the claim side of a refinement comparison, written from the spec's
words, to be set against the code-side `webDirSig` and `cliDigest`. -/
def specFoldDigest (fileCount totalBytes : Nat)
    (tuples : List (String × Nat × Nat)) : Nat :=
  (List.insertionSort tupLe tuples).foldl foldTuple
    (fnvUpdateU64 (fnvUpdateU64 fnvOffset fileCount) totalBytes)

/-! ## Order properties of the comparators -/

instance : IsTotal (Nat × Nat) pairLe :=
  ⟨by intro a b; unfold pairLe; omega⟩

instance : IsTrans (Nat × Nat) pairLe :=
  ⟨by intro a b c hab hbc; unfold pairLe at hab hbc ⊢; omega⟩

instance : IsAntisymm (Nat × Nat) pairLe :=
  ⟨by
    intro a b h1 h2
    obtain ⟨a1, a2⟩ := a
    obtain ⟨b1, b2⟩ := b
    unfold pairLe at h1 h2
    simp only [Prod.mk.injEq]
    omega⟩

instance : IsTotal (String × Nat × Nat) tupLe :=
  ⟨by
    intro A B
    unfold tupLe
    rcases pathLt_trichotomy A.1 B.1 with h | h | h
    · exact Or.inl (Or.inl h)
    · have : (A.2.1 < B.2.1 ∨ (A.2.1 = B.2.1 ∧ A.2.2 ≤ B.2.2)) ∨
          (B.2.1 < A.2.1 ∨ (B.2.1 = A.2.1 ∧ B.2.2 ≤ A.2.2)) := by omega
      rcases this with h2 | h2
      · exact Or.inl (Or.inr ⟨h, h2⟩)
      · exact Or.inr (Or.inr ⟨h.symm, h2⟩)
    · exact Or.inr (Or.inl h)⟩

instance : IsTrans (String × Nat × Nat) tupLe :=
  ⟨by
    intro A B C hab hbc
    unfold tupLe at hab hbc ⊢
    rcases hab with h1 | ⟨e1, h1⟩
    · rcases hbc with h2 | ⟨e2, h2⟩
      · exact Or.inl (pathLt_trans h1 h2)
      · exact Or.inl (e2 ▸ h1)
    · rcases hbc with h2 | ⟨e2, h2⟩
      · exact Or.inl (e1 ▸ h2)
      · exact Or.inr ⟨e1.trans e2, by omega⟩⟩

instance : IsAntisymm (String × Nat × Nat) tupLe :=
  ⟨by
    intro A B h1 h2
    obtain ⟨a1, a2, a3⟩ := A
    obtain ⟨b1, b2, b3⟩ := B
    unfold tupLe at h1 h2
    simp only at h1 h2
    have e1 : a1 = b1 := by
      rcases h1 with h1 | ⟨e1, _⟩
      · rcases h2 with h2 | ⟨e2, _⟩
        · exact absurd (pathLt_trans h1 h2) (pathLt_irrefl _)
        · exact e2.symm
      · exact e1
    subst e1
    simp only [Prod.mk.injEq, true_and]
    have n1 : ¬pathLt a1 a1 := pathLt_irrefl _
    rcases h1 with h1 | ⟨_, h1⟩
    · exact absurd h1 n1
    rcases h2 with h2 | ⟨_, h2⟩
    · exact absurd h2 n1
    omega⟩

instance : IsTotal FileGroup fgRel :=
  ⟨by intro a b; unfold fgRel; omega⟩

instance : IsTrans FileGroup fgRel :=
  ⟨by intro a b c hab hbc; unfold fgRel at hab hbc ⊢; omega⟩

instance : IsTotal DirGroup dgRel :=
  ⟨by intro a b; unfold dgRel; omega⟩

instance : IsTrans DirGroup dgRel :=
  ⟨by intro a b c hab hbc; unfold dgRel at hab hbc ⊢; omega⟩

instance : IsTotal FileGroup cliFgRel :=
  ⟨by
    intro a b
    unfold cliFgRel
    rcases pathLe_total a.paths.headI b.paths.headI with h | h
    · by_cases hc : a.paths.length = b.paths.length
      · by_cases hs : a.size = b.size
        · exact Or.inl (Or.inr ⟨hc, Or.inr ⟨hs, h⟩⟩)
        · omega
      · omega
    · by_cases hc : a.paths.length = b.paths.length
      · by_cases hs : a.size = b.size
        · exact Or.inr (Or.inr ⟨hc.symm, Or.inr ⟨hs.symm, h⟩⟩)
        · omega
      · omega⟩

instance : IsTrans FileGroup cliFgRel :=
  ⟨by
    intro a b c hab hbc
    unfold cliFgRel at hab hbc ⊢
    rcases hab with h1 | ⟨e1, h1⟩
    · omega
    rcases hbc with h2 | ⟨e2, h2⟩
    · omega
    rcases h1 with h1 | ⟨f1, h1⟩
    · omega
    rcases h2 with h2 | ⟨f2, h2⟩
    · omega
    exact Or.inr ⟨e1.trans e2, Or.inr ⟨f1.trans f2, pathLe_trans h1 h2⟩⟩⟩

instance : IsTotal CDirGroup cliDgRel :=
  ⟨by
    intro a b
    unfold cliDgRel
    rcases pathLe_total a.dirs.headI b.dirs.headI with h | h
    · by_cases hc : a.total_bytes = b.total_bytes
      · by_cases hs : a.file_count = b.file_count
        · exact Or.inl (Or.inr ⟨hc, Or.inr ⟨hs, h⟩⟩)
        · omega
      · omega
    · by_cases hc : a.total_bytes = b.total_bytes
      · by_cases hs : a.file_count = b.file_count
        · exact Or.inr (Or.inr ⟨hc.symm, Or.inr ⟨hs.symm, h⟩⟩)
        · omega
      · omega⟩

instance : IsTrans CDirGroup cliDgRel :=
  ⟨by
    intro a b c hab hbc
    unfold cliDgRel at hab hbc ⊢
    rcases hab with h1 | ⟨e1, h1⟩
    · omega
    rcases hbc with h2 | ⟨e2, h2⟩
    · omega
    rcases h1 with h1 | ⟨f1, h1⟩
    · omega
    rcases h2 with h2 | ⟨f2, h2⟩
    · omega
    exact Or.inr ⟨e1.trans e2, Or.inr ⟨f1.trans f2, pathLe_trans h1 h2⟩⟩⟩

/-! ## Small facts -/

/-- Sorting two permuted lists with a total antisymmetric transitive order
yields the same list; this is why `std::sort`-then-fold signatures are
iteration-order independent. -/
theorem insertionSort_eq_of_perm {α : Type} (r : α → α → Prop) [DecidableRel r]
    [IsTotal α r] [IsTrans α r] [IsAntisymm α r] {l1 l2 : List α} (h : l1.Perm l2) :
    List.insertionSort r l1 = List.insertionSort r l2 :=
  List.eq_of_perm_of_sorted
    ((List.perm_insertionSort r l1).trans (h.trans (List.perm_insertionSort r l2).symm))
    (List.sorted_insertionSort r l1) (List.sorted_insertionSort r l2)

theorem two_le_length_of_mem {α : Type} {a b : α} {l : List α}
    (ha : a ∈ l) (hb : b ∈ l) (hab : a ≠ b) : 2 ≤ l.length := by
  match l with
  | [] => cases ha
  | [x] =>
      simp only [List.mem_singleton] at ha hb
      exact absurd (ha.trans hb.symm) hab
  | x :: y :: t => simp only [List.length_cons]; omega

/-- Both read flags set. -/
def flagsOk (f : MFile) : Prop := f.sizeOk = true ∧ f.readOk = true

instance : DecidablePred flagsOk := fun f => by unfold flagsOk; infer_instance

theorem filesEqual_yes_content {a b : MFile} (h : filesEqual a b = .yes) :
    a.content = b.content := by
  unfold filesEqual at h
  split_ifs at h with h1 h2 h3 h4 h5
  · exact h5

theorem filesEqual_of_flags {a b : MFile} (ha : flagsOk a) (hb : flagsOk b) :
    filesEqual a b = if a.content = b.content then .yes else .no := by
  by_cases hc : a.content = b.content
  · have hs : a.size = b.size := by simp [MFile.size, hc]
    simp [filesEqual, ha.1, ha.2, hb.1, hb.2, hs, hc]
  · by_cases hs : a.size = b.size <;>
      simp [filesEqual, ha.1, ha.2, hb.1, hb.2, hs, hc]

/-! ## Placement and class invariants (run_scan confirmation loop) -/

/-- `placeIn` either leaves the classes alone (not placed) or extends exactly
one class whose representative compared byte-equal. -/
theorem placeIn_cases (p : MFile) (cs : List Cls) :
    ((placeIn p cs).1 = cs ∧ (placeIn p cs).2.1 = false) ∨
    ∃ pre c post, cs = pre ++ c :: post ∧
      (placeIn p cs).1 = pre ++ (⟨c.front, c.rest ++ [p]⟩ : Cls) :: post ∧
      (placeIn p cs).2.1 = true ∧ filesEqual p c.front = .yes := by
  induction cs with
  | nil => left; exact ⟨rfl, rfl⟩
  | cons c cs ih =>
      cases hfe : filesEqual p c.front with
      | yes =>
          right
          exact ⟨[], c, cs, rfl, by simp [placeIn, hfe], by simp [placeIn, hfe], hfe⟩
      | no =>
          rcases ih with ⟨h1, h2⟩ | ⟨pre, c', post, he, h1, h2, h3⟩
          · left; simp [placeIn, hfe, h1, h2]
          · right
            exact ⟨c :: pre, c', post, by simp [he],
              by simp [placeIn, hfe, h1], by simp [placeIn, hfe, h2], h3⟩
      | err m =>
          rcases ih with ⟨h1, h2⟩ | ⟨pre, c', post, he, h1, h2, h3⟩
          · left; simp [placeIn, hfe, h1, h2]
          · right
            exact ⟨c :: pre, c', post, by simp [he],
              by simp [placeIn, hfe, h1], by simp [placeIn, hfe, h2], h3⟩

/-- With all flags fine, "not placed" means no representative had equal
content. -/
theorem placed_false_no_match {p : MFile} {cs : List Cls} (hp : flagsOk p)
    (hf : ∀ c ∈ cs, flagsOk c.front) (h : (placeIn p cs).2.1 = false) :
    ∀ c ∈ cs, p.content ≠ c.front.content := by
  induction cs with
  | nil => intro c hc; cases hc
  | cons c cs ih =>
      have hfe := filesEqual_of_flags hp (hf c (by simp))
      by_cases hc : p.content = c.front.content
      · exfalso
        have hfe2 : filesEqual p c.front = .yes := by rw [hfe, if_pos hc]
        simp [placeIn, hfe2] at h
      · rw [if_neg hc] at hfe
        simp only [placeIn, hfe] at h
        intro c' hc'
        rcases List.mem_cons.1 hc' with rfl | hc'
        · exact hc
        · exact ih (fun d hd => hf d (List.mem_cons_of_mem _ hd)) h c' hc'

/-- The invariant the confirmation loop maintains over its class list:
readable representatives, pairwise distinct representative contents, members
byte-identical to their representatives, and every processed candidate is a
member of some class. -/
def classInv (processed : List MFile) (cs : List Cls) : Prop :=
  (∀ c ∈ cs, flagsOk c.front) ∧
  (cs.map (fun c => c.front.content)).Nodup ∧
  (∀ c ∈ cs, ∀ x ∈ c.members, x.content = c.front.content) ∧
  (∀ x ∈ processed, ∃ c ∈ cs, x ∈ c.members)

theorem classInv_step {p : MFile} {cs : List Cls} {processed : List MFile}
    (hp : flagsOk p) (h : classInv processed cs) :
    classInv (processed ++ [p])
      (if (placeIn p cs).2.1 then (placeIn p cs).1 else (placeIn p cs).1 ++ [⟨p, []⟩]) := by
  obtain ⟨hfl, hnd, hcnt, hcov⟩ := h
  rcases placeIn_cases p cs with ⟨h1, h2⟩ | ⟨pre, c, post, he, h1, h2, h3⟩
  · -- not placed: a fresh class [p] is appended
    have hnm : ∀ c ∈ cs, p.content ≠ c.front.content :=
      placed_false_no_match hp hfl h2
    rw [h2, if_neg (by simp), h1]
    refine ⟨?_, ?_, ?_, ?_⟩
    · intro c hc
      rcases List.mem_append.1 hc with hc | hc
      · exact hfl c hc
      · simp only [List.mem_singleton] at hc
        subst hc; exact hp
    · rw [List.map_append]
      refine List.Nodup.append hnd (by simp) ?_
      intro x hx
      simp only [List.map_cons, List.map_nil, List.mem_singleton]
      rcases List.mem_map.1 hx with ⟨c, hc, rfl⟩
      exact fun he' => hnm c hc he'.symm
    · intro c hc
      rcases List.mem_append.1 hc with hc | hc
      · exact hcnt c hc
      · simp only [List.mem_singleton] at hc
        subst hc
        intro x hx
        have hxp : x = p := by simpa [Cls.members] using hx
        rw [hxp]
    · intro x hx
      rcases List.mem_append.1 hx with hx | hx
      · obtain ⟨c, hc, hm⟩ := hcov x hx
        exact ⟨c, List.mem_append_left _ hc, hm⟩
      · have hxp : x = p := by simpa using hx
        exact ⟨⟨p, []⟩, List.mem_append_right _ (by simp),
          by simp [Cls.members, hxp]⟩
  · -- placed into class c (extended at the back)
    have hpc : p.content = c.front.content := filesEqual_yes_content h3
    rw [h2, if_pos rfl, h1]
    subst he
    have hfronts :
        ((pre ++ (⟨c.front, c.rest ++ [p]⟩ : Cls) :: post).map (fun c => c.front.content))
          = ((pre ++ c :: post).map (fun c => c.front.content)) := by
      simp
    refine ⟨?_, ?_, ?_, ?_⟩
    · intro c' hc'
      rcases List.mem_append.1 hc' with hc' | hc'
      · exact hfl c' (List.mem_append_left _ hc')
      · rcases List.mem_cons.1 hc' with rfl | hc'
        · exact hfl c (by simp)
        · exact hfl c' (by simp [hc'])
    · rw [hfronts]; exact hnd
    · intro c' hc'
      rcases List.mem_append.1 hc' with hc' | hc'
      · exact hcnt c' (List.mem_append_left _ hc')
      · rcases List.mem_cons.1 hc' with rfl | hc'
        · intro x hx
          simp only [Cls.members] at hx ⊢
          rcases List.mem_cons.1 hx with rfl | hx
          · rfl
          · rcases List.mem_append.1 hx with hx | hx
            · exact hcnt c (by simp) x (by simp [Cls.members, hx])
            · have hxp : x = p := by simpa using hx
              rw [hxp]; exact hpc
        · exact hcnt c' (by simp [hc'])
    · intro x hx
      rcases List.mem_append.1 hx with hx | hx
      · obtain ⟨c', hc', hm⟩ := hcov x hx
        rcases List.mem_append.1 hc' with hc'' | hc''
        · exact ⟨c', List.mem_append_left _ hc'', hm⟩
        · rcases List.mem_cons.1 hc'' with rfl | hc''
          · refine ⟨⟨c'.front, c'.rest ++ [p]⟩, by simp, ?_⟩
            simp only [Cls.members] at hm ⊢
            rcases List.mem_cons.1 hm with rfl | hm
            · simp
            · simp [hm]
          · exact ⟨c', by simp [hc''], hm⟩
      · have hxp : x = p := by simpa using hx
        exact ⟨⟨c.front, c.rest ++ [p]⟩, by simp, by simp [Cls.members, hxp]⟩

theorem classInv_fold (l : List MFile) (hl : ∀ x ∈ l, flagsOk x) :
    ∀ (processed : List MFile) (acc : List Cls × List ErrorNote),
      classInv processed acc.1 →
      classInv (processed ++ l)
        ((l.foldl (fun acc p =>
            let r := placeIn p acc.1
            (if r.2.1 then r.1 else r.1 ++ [⟨p, []⟩], acc.2 ++ r.2.2)) acc).1) := by
  induction l with
  | nil => intro processed acc h; simpa using h
  | cons p l ih =>
      intro processed acc h
      have hp : flagsOk p := hl p (by simp)
      have hstep := classInv_step hp h
      have := ih (fun x hx => hl x (by simp [hx])) (processed ++ [p])
        (if (placeIn p acc.1).2.1 then (placeIn p acc.1).1
           else (placeIn p acc.1).1 ++ [⟨p, []⟩],
         acc.2 ++ (placeIn p acc.1).2.2) hstep
      simpa using this

theorem buildClasses_classInv (vec : List MFile) (h : ∀ x ∈ vec, flagsOk x) :
    classInv vec (buildClasses vec).1 := by
  have := classInv_fold vec h [] ([], []) ⟨by simp, by simp, by simp, by simp⟩
  simpa [buildClasses] using this

/-- Completeness of the confirmation loop: two byte-identical readable
candidates of the same full-hash bucket end in the same class. -/
theorem buildClasses_complete {vec : List MFile} (h : ∀ x ∈ vec, flagsOk x)
    {a b : MFile} (ha : a ∈ vec) (hb : b ∈ vec) (hab : a.content = b.content) :
    ∃ c ∈ (buildClasses vec).1, a ∈ c.members ∧ b ∈ c.members := by
  obtain ⟨hfl, hnd, hcnt, hcov⟩ := buildClasses_classInv vec h
  obtain ⟨c, hc, hma⟩ := hcov a ha
  obtain ⟨c', hc', hmb⟩ := hcov b hb
  have : c.front.content = c'.front.content := by
    rw [← hcnt c hc a hma, ← hcnt c' hc' b hmb, hab]
  have hcc : c = c' := List.inj_on_of_nodup_map hnd hc hc' this
  subst hcc
  exact ⟨c, hc, hma, hmb⟩

/-- Soundness of the confirmation loop: every class member came from the
bucket and is byte-identical to the representative. -/
theorem buildClasses_sound (vec : List MFile) :
    ∀ c ∈ (buildClasses vec).1, ∀ x ∈ c.members,
      x ∈ vec ∧ x.content = c.front.content := by
  suffices H : ∀ (l : List MFile) (acc : List Cls × List ErrorNote)
      (S : MFile → Prop),
      (∀ c ∈ acc.1, ∀ x ∈ c.members, S x ∧ x.content = c.front.content) →
      (∀ x ∈ l, S x) →
      ∀ c ∈ (l.foldl (fun acc p =>
          let r := placeIn p acc.1
          (if r.2.1 then r.1 else r.1 ++ [⟨p, []⟩], acc.2 ++ r.2.2)) acc).1,
        ∀ x ∈ c.members, S x ∧ x.content = c.front.content by
    intro c hc x hx
    exact H vec ([], []) (fun x => x ∈ vec) (by simp) (fun x hx => hx) c
      (by simpa [buildClasses] using hc) x hx
  intro l
  induction l with
  | nil => intro acc S hacc _; simpa using hacc
  | cons p l ih =>
      intro acc S hacc hl
      simp only [List.foldl_cons]
      refine ih _ S ?_ (fun x hx => hl x (by simp [hx]))
      have hSp : S p := hl p (by simp)
      rcases placeIn_cases p acc.1 with ⟨h1, h2⟩ | ⟨pre, c, post, he, h1, h2, h3⟩
      · rw [h2, if_neg (by simp), h1]
        intro c hc x hx
        rcases List.mem_append.1 hc with hc | hc
        · exact hacc c hc x hx
        · simp only [List.mem_singleton] at hc
          subst hc
          have hxp : x = p := by simpa [Cls.members] using hx
          rw [hxp]
          exact ⟨hSp, rfl⟩
      · rw [h2, if_pos rfl, h1]
        have hpc : p.content = c.front.content := filesEqual_yes_content h3
        intro c' hc' x hx
        rcases List.mem_append.1 hc' with hc' | hc'
        · exact hacc c' (he ▸ List.mem_append_left _ hc') x hx
        · rcases List.mem_cons.1 hc' with rfl | hc'
          · simp only [Cls.members] at hx
            rcases List.mem_cons.1 hx with hx0 | hx
            · rw [hx0]
              exact hacc c (he ▸ by simp) c.front (by simp [Cls.members])
            · rcases List.mem_append.1 hx with hx | hx
              · exact hacc c (he ▸ by simp) x (by simp [Cls.members, hx])
              · have hxp : x = p := by simpa using hx
                rw [hxp]
                exact ⟨hSp, hpc⟩
          · exact hacc c' (he ▸ by simp [hc']) x hx

/-! ## Pipeline membership lemmas (web variant) -/

theorem flagsOk_iff {f : MFile} : flagsOk f ↔ quickOk f = true := by
  unfold flagsOk quickOk
  simp [Bool.and_eq_true]

theorem mem_bfInput_of {paths : List MFile} {a : MFile}
    (ha : a ∈ paths) (hq : quickOk a = true) : a ∈ bucketBfInput paths := by
  have hlk : a ∈ lk (bucketQuick paths) (quickHash a.content) := by
    rw [bucketQuick, lk_buildRec, List.mem_filter]
    exact ⟨ha, by simp [hq]⟩
  have hne : lk (bucketQuick paths) (quickHash a.content) ≠ [] :=
    fun he => by simp [he] at hlk
  have hkv := lk_mem (bucketQuick paths) (quickHash a.content) hne
  have hfil : (quickHash a.content, lk (bucketQuick paths) (quickHash a.content))
      ∈ (bucketQuick paths).filter (fun kv => !(kv.2.length < 1)) := by
    rw [List.mem_filter]
    refine ⟨hkv, ?_⟩
    simp only [Bool.not_eq_eq_eq_not, Bool.not_true, decide_eq_false_iff_not, Nat.not_lt]
    exact Nat.one_le_iff_ne_zero.2 (fun h0 => hne (List.length_eq_zero.1 h0))
  rw [bucketBfInput, List.mem_flatten]
  exact ⟨lk (bucketQuick paths) (quickHash a.content),
    List.mem_map.2 ⟨_, hfil, rfl⟩, hlk⟩

theorem mem_bfInput_sound {paths : List MFile} {x : MFile}
    (h : x ∈ bucketBfInput paths) : x ∈ paths ∧ quickOk x = true := by
  rw [bucketBfInput, List.mem_flatten] at h
  obtain ⟨bl, hbl, hx⟩ := h
  rcases List.mem_map.1 hbl with ⟨kv, hkv, rfl⟩
  have hkv' := (List.mem_filter.1 hkv).1
  have := mem_buildRec (fun f => quickHash f.content) quickOk paths
    (by simpa [bucketQuick] using (show (kv.1, kv.2) ∈ bucketQuick paths from hkv'))
  rw [this] at hx
  have hx2 := List.mem_filter.1 hx
  have h2 := hx2.2
  rw [Bool.and_eq_true] at h2
  exact ⟨hx2.1, h2.1⟩

theorem mem_byFull_of {paths : List MFile} {a : MFile}
    (ha : a ∈ bucketBfInput paths) (hr : a.readOk = true) :
    a ∈ lk (bucketByFull paths) (fullHash a.content) := by
  rw [bucketByFull, lk_buildRec, List.mem_filter]
  exact ⟨ha, by simp [hr]⟩

theorem byFull_bucket_sound {paths : List MFile} {k : Nat} {bl : List MFile}
    (h : (k, bl) ∈ bucketByFull paths) :
    bl = (bucketBfInput paths).filter
      (fun f => f.readOk && decide (fullHash f.content = k)) :=
  mem_buildRec _ _ _ h

/-- Per-size-bucket completeness: two distinct byte-identical readable files
of the bucket always share an emitted group. -/
theorem bucketGroups_complete {sz : Nat} {paths : List MFile} {a b : MFile}
    (ha : a ∈ paths) (hb : b ∈ paths) (hpab : a.path ≠ b.path)
    (hfa : flagsOk a) (hfb : flagsOk b) (hab : a.content = b.content) :
    ∃ g ∈ bucketGroups sz paths, a.path ∈ g.paths ∧ b.path ∈ g.paths := by
  have hqa := flagsOk_iff.1 hfa
  have hqb := flagsOk_iff.1 hfb
  have hba : a ∈ bucketBfInput paths := mem_bfInput_of ha hqa
  have hbb : b ∈ bucketBfInput paths := mem_bfInput_of hb hqb
  have hva : a ∈ lk (bucketByFull paths) (fullHash a.content) := mem_byFull_of hba hfa.2
  have hvb : b ∈ lk (bucketByFull paths) (fullHash a.content) := by
    have := mem_byFull_of hbb hfb.2
    rwa [← hab] at this
  set vec := lk (bucketByFull paths) (fullHash a.content) with hvec
  have hne : vec ≠ [] := fun he => by simp [he] at hva
  have hkv : (fullHash a.content, vec) ∈ bucketByFull paths := lk_mem _ _ hne
  have hanb : a ≠ b := fun he => hpab (by rw [he])
  have hlen : 2 ≤ vec.length := two_le_length_of_mem hva hvb hanb
  have hflags : ∀ x ∈ vec, flagsOk x := by
    intro x hx
    rw [hvec, bucketByFull, lk_buildRec] at hx
    have := List.mem_filter.1 hx
    exact flagsOk_iff.2 (mem_bfInput_sound this.1).2
  obtain ⟨c, hc, hma, hmb⟩ := buildClasses_complete hflags hva hvb hab
  have hclen : 2 ≤ c.members.length := two_le_length_of_mem hma hmb hanb
  refine ⟨⟨sz, c.members.map MFile.path⟩, ?_, ?_, ?_⟩
  · rw [bucketGroups, List.mem_flatten]
    refine ⟨_, List.mem_map.2 ⟨(fullHash a.content, vec), hkv, rfl⟩, ?_⟩
    have hnl : ¬(vec.length < 2) := by omega
    rw [if_neg (by simpa using hnl)]
    exact List.mem_map.2 ⟨c, List.mem_filter.2 ⟨hc, by simpa using hclen⟩, rfl⟩
  · exact List.mem_map.2 ⟨a, hma, rfl⟩
  · exact List.mem_map.2 ⟨b, hmb, rfl⟩

/-- Per-size-bucket soundness: every emitted group is a ≥ 2 class of
byte-identical readable files of the bucket, in class order. -/
theorem bucketGroups_sound {sz : Nat} {paths : List MFile} {g : FileGroup}
    (hg : g ∈ bucketGroups sz paths) :
    g.size = sz ∧ ∃ L : List MFile, g.paths = L.map MFile.path ∧ 2 ≤ L.length ∧
      (∀ x ∈ L, x ∈ paths ∧ quickOk x = true) ∧
      (∀ x ∈ L, ∀ y ∈ L, x.content = y.content) := by
  rw [bucketGroups, List.mem_flatten] at hg
  obtain ⟨gl, hgl, hgm⟩ := hg
  rcases List.mem_map.1 hgl with ⟨kv, hkv, rfl⟩
  by_cases hlen : kv.2.length < 2
  · rw [if_pos hlen] at hgm; cases hgm
  · rw [if_neg hlen] at hgm
    rcases List.mem_map.1 hgm with ⟨c, hc, rfl⟩
    have hcf := List.mem_filter.1 hc
    have hsound := buildClasses_sound kv.2 c hcf.1
    have hkv2 : kv.2 ⊆ bucketBfInput paths := by
      intro x hx
      have heq := byFull_bucket_sound (show (kv.1, kv.2) ∈ bucketByFull paths by
        simpa using hkv)
      rw [heq] at hx
      exact (List.mem_filter.1 hx).1
    refine ⟨rfl, c.members, rfl, by simpa using hcf.2, ?_, ?_⟩
    · intro x hx
      have hxv := (hsound x hx).1
      have := mem_bfInput_sound (hkv2 hxv)
      exact this
    · intro x hx y hy
      rw [(hsound x hx).2, (hsound y hy).2]

/-! ## Scan-level membership lemmas -/

theorem mem_webBySize_sound {I : ScanInput} {sz : Nat} {bl : List MFile}
    (h : (sz, bl) ∈ webBySize I) :
    bl = I.files.filter (fun f => f.sizeOk && decide (f.size = sz)) := by
  rw [webBySize, List.mem_filter] at h
  exact mem_buildRec _ _ _ h.1

theorem mem_webBySize_of {I : ScanInput} {f : MFile}
    (hf : f ∈ I.files) (hs : f.sizeOk = true) :
    (f.size, lk (buildRec MFile.size MFile.sizeOk I.files) f.size) ∈ webBySize I ∧
      f ∈ lk (buildRec MFile.size MFile.sizeOk I.files) f.size := by
  have hlk : f ∈ lk (buildRec MFile.size MFile.sizeOk I.files) f.size := by
    rw [lk_buildRec, List.mem_filter]
    exact ⟨hf, by simp [hs]⟩
  have hne : lk (buildRec MFile.size MFile.sizeOk I.files) f.size ≠ [] :=
    fun he => by simp [he] at hlk
  refine ⟨?_, hlk⟩
  rw [webBySize, List.mem_filter]
  refine ⟨lk_mem _ _ hne, ?_⟩
  simp only [Bool.not_eq_eq_eq_not, Bool.not_true, decide_eq_false_iff_not, Nat.not_lt]
  exact Nat.one_le_iff_ne_zero.2 (fun h0 => hne (List.length_eq_zero.1 h0))

theorem mem_rawFileGroups {I : ScanInput} {g : FileGroup} :
    g ∈ rawFileGroups I ↔
      ∃ kv ∈ webBySize I, g ∈ bucketGroups kv.1 kv.2 := by
  rw [rawFileGroups, List.mem_flatten]
  constructor
  · rintro ⟨gl, hgl, hgm⟩
    rcases List.mem_map.1 hgl with ⟨out, hout, rfl⟩
    rcases List.mem_map.1 hout with ⟨kv, hkv, rfl⟩
    exact ⟨kv, hkv, by simpa [webOuts, processBucket] using hgm⟩
  · rintro ⟨kv, hkv, hgm⟩
    refine ⟨(processBucket kv.1 kv.2).groups, ?_, by simpa [processBucket] using hgm⟩
    exact List.mem_map.2 ⟨processBucket kv.1 kv.2,
      List.mem_map.2 ⟨kv, by simpa [webOuts] using hkv, rfl⟩, rfl⟩

theorem run_scan_file_groups {I : ScanInput}
    (hr : I.rootExists = true) (hi : I.iterOk = true) :
    (run_scan I).file_groups = List.insertionSort fgRel (rawFileGroups I) := by
  rw [run_scan, if_neg (by simp [hr]), if_neg (by simp [hi])]

theorem mem_run_scan_file_groups {I : ScanInput} {g : FileGroup}
    (hr : I.rootExists = true) (hi : I.iterOk = true) :
    g ∈ (run_scan I).file_groups ↔ g ∈ rawFileGroups I := by
  rw [run_scan_file_groups hr hi]
  exact (List.perm_insertionSort fgRel (rawFileGroups I)).mem_iff

theorem mem_file_groups_raw {I : ScanInput} {g : FileGroup}
    (hg : g ∈ (run_scan I).file_groups) : g ∈ rawFileGroups I := by
  cases hr : I.rootExists with
  | false =>
      rw [run_scan, if_pos (by simp [hr])] at hg
      cases hg
  | true =>
      cases hi : I.iterOk with
      | false =>
          rw [run_scan, if_neg (by simp [hr]), if_pos (by simp [hi])] at hg
          cases hg
      | true => rwa [mem_run_scan_file_groups hr hi] at hg

/-- Scan-level completeness: two distinct readable byte-identical candidates
always share a group of the final report. -/
theorem grouped_of_equal_content {I : ScanInput} {a b : MFile}
    (hr : I.rootExists = true) (hi : I.iterOk = true)
    (ha : a ∈ I.files) (hb : b ∈ I.files) (hpab : a.path ≠ b.path)
    (hab : a.content = b.content) (hfa : flagsOk a) (hfb : flagsOk b) :
    ∃ g ∈ (run_scan I).file_groups, a.path ∈ g.paths ∧ b.path ∈ g.paths := by
  have hsz : a.size = b.size := by simp [MFile.size, hab]
  obtain ⟨hkv, hlka⟩ := mem_webBySize_of ha hfa.1
  obtain ⟨_, hlkb⟩ := mem_webBySize_of hb hfb.1
  rw [← hsz] at hlkb
  obtain ⟨g, hg, hga, hgb⟩ := bucketGroups_complete hlka hlkb hpab hfa hfb hab
  refine ⟨g, ?_, hga, hgb⟩
  rw [mem_run_scan_file_groups hr hi, mem_rawFileGroups]
  exact ⟨(a.size, lk (buildRec MFile.size MFile.sizeOk I.files) a.size), hkv, hg⟩

/-- Scan-level soundness: every reported group is backed by ≥ 2 candidate
files of the walk, all readable, all pairwise byte-identical. -/
theorem scan_group_sound {I : ScanInput} {g : FileGroup}
    (hg : g ∈ (run_scan I).file_groups) :
    2 ≤ g.paths.length ∧ ∃ L : List MFile, g.paths = L.map MFile.path ∧
      (∀ x ∈ L, x ∈ I.files ∧ quickOk x = true) ∧
      (∀ x ∈ L, ∀ y ∈ L, x.content = y.content) := by
  have hg' := mem_file_groups_raw hg
  rw [mem_rawFileGroups] at hg'
  obtain ⟨kv, hkv, hbg⟩ := hg'
  obtain ⟨_, L, hpaths, hL2, hmem, hpair⟩ := bucketGroups_sound hbg
  have hbl := mem_webBySize_sound
    (show (kv.1, kv.2) ∈ webBySize I by simpa using hkv)
  refine ⟨by rw [hpaths]; simpa using hL2, L, hpaths, ?_, hpair⟩
  intro x hx
  obtain ⟨hxp, hxq⟩ := hmem x hx
  rw [hbl] at hxp
  exact ⟨(List.mem_filter.1 hxp).1, hxq⟩

/-- Scan-level separation: with unique paths, two candidates with different
bytes never share a group. -/
theorem not_grouped_of_ne_content {I : ScanInput} {a b : MFile}
    (hnd : (I.files.map MFile.path).Nodup)
    (ha : a ∈ I.files) (hb : b ∈ I.files) (hab : a.content ≠ b.content) :
    ∀ g ∈ (run_scan I).file_groups, ¬(a.path ∈ g.paths ∧ b.path ∈ g.paths) := by
  intro g hg ⟨hga, hgb⟩
  obtain ⟨_, L, hpaths, hmem, hpair⟩ := scan_group_sound hg
  rw [hpaths] at hga hgb
  rcases List.mem_map.1 hga with ⟨x, hx, hxa⟩
  rcases List.mem_map.1 hgb with ⟨y, hy, hyb⟩
  have hxa' : x = a := List.inj_on_of_nodup_map hnd (hmem x hx).1 ha hxa
  have hyb' : y = b := List.inj_on_of_nodup_map hnd (hmem y hy).1 hb hyb
  have := hpair x hx y hy
  rw [hxa', hyb'] at this
  exact hab this

/-! ## C1 -/

/-- C1: a scan places every pair of byte-identical readable candidate files
(with distinct paths) in a common FileGroup; files with differing bytes never
share a FileGroup — the byte-compare confirmation classes guarantee this for
arbitrary size, quick-fingerprint and full-digest collisions; and every
emitted FileGroup has at least two members, all drawn from the walked files
and pairwise byte-identical. -/
theorem C1_file_groups_byte_exact :
    (∀ (I : ScanInput) (a b : MFile), I.rootExists = true → I.iterOk = true →
      a ∈ I.files → b ∈ I.files → a.path ≠ b.path → a.content = b.content →
      flagsOk a → flagsOk b →
      ∃ g ∈ (run_scan I).file_groups, a.path ∈ g.paths ∧ b.path ∈ g.paths) ∧
    (∀ (I : ScanInput) (a b : MFile), (I.files.map MFile.path).Nodup →
      a ∈ I.files → b ∈ I.files → a.content ≠ b.content →
      ∀ g ∈ (run_scan I).file_groups, ¬(a.path ∈ g.paths ∧ b.path ∈ g.paths)) ∧
    (∀ (I : ScanInput) (g : FileGroup), g ∈ (run_scan I).file_groups →
      2 ≤ g.paths.length ∧ ∃ L : List MFile, g.paths = L.map MFile.path ∧
        (∀ x ∈ L, x ∈ I.files) ∧ (∀ x ∈ L, ∀ y ∈ L, x.content = y.content)) := by
  refine ⟨?_, ?_, ?_⟩
  · intro I a b hr hi ha hb hpab hab hfa hfb
    exact grouped_of_equal_content hr hi ha hb hpab hab hfa hfb
  · intro I a b hnd ha hb hab
    exact not_grouped_of_ne_content hnd ha hb hab
  · intro I g hg
    obtain ⟨h2, L, hpaths, hmem, hpair⟩ := scan_group_sound hg
    exact ⟨h2, L, hpaths, fun x hx => (hmem x hx).1, hpair⟩

/-- Input exercising C1: two byte-identical files under the root. -/
def c1I : ScanInput :=
  ⟨"/r", true, true,
   [⟨"a.jpg", [1, 2], true, true⟩, ⟨"b.jpg", [1, 2], true, true⟩], []⟩

theorem C1_witness :
    ∃ g ∈ (run_scan c1I).file_groups,
      ("a.jpg" : String) ∈ g.paths ∧ ("b.jpg" : String) ∈ g.paths :=
  C1_file_groups_byte_exact.1 c1I
    ⟨"a.jpg", [1, 2], true, true⟩ ⟨"b.jpg", [1, 2], true, true⟩
    rfl rfl (by simp [c1I]) (by simp [c1I]) (by decide) rfl
    (by decide) (by decide)

/-! ## Directory-phase membership lemmas -/

theorem mem_webDirBuckets_sound {I : ScanInput} {k : Nat} {bl : List WDir}
    (h : (k, bl) ∈ webDirBuckets I) :
    bl = I.dirs.filter (fun d =>
      (d.iterOk && !(dirEntries (scanInfos I) d).isEmpty) &&
        decide (webDirSig (dirEntries (scanInfos I) d) = k)) :=
  mem_buildRec _ _ _ h

theorem mem_dir_buckets_raw {I : ScanInput} {b : Nat × List String}
    (hb : b ∈ (run_scan I).dir_buckets) :
    ∃ kv ∈ webDirBuckets I, b = (kv.1, kv.2.map WDir.path) := by
  cases hr : I.rootExists with
  | false =>
      rw [run_scan, if_pos (by simp [hr])] at hb
      cases hb
  | true =>
      cases hi : I.iterOk with
      | false =>
          rw [run_scan, if_neg (by simp [hr]), if_pos (by simp [hi])] at hb
          cases hb
      | true =>
          rw [run_scan, if_neg (by simp [hr]), if_neg (by simp [hi])] at hb
          rcases List.mem_map.1 hb with ⟨kv, hkv, rfl⟩
          exact ⟨kv, hkv, rfl⟩

theorem mem_dir_groups_raw {I : ScanInput} {g : DirGroup}
    (hg : g ∈ (run_scan I).dir_groups) : g ∈ dirGroupsOf (webDirBuckets I) := by
  cases hr : I.rootExists with
  | false =>
      rw [run_scan, if_pos (by simp [hr])] at hg
      cases hg
  | true =>
      cases hi : I.iterOk with
      | false =>
          rw [run_scan, if_neg (by simp [hr]), if_pos (by simp [hi])] at hg
          cases hg
      | true =>
          rw [run_scan, if_neg (by simp [hr]), if_neg (by simp [hi])] at hg
          exact (List.perm_insertionSort dgRel _).mem_iff.1 hg

theorem dir_group_dirs_sound {I : ScanInput} {g : DirGroup}
    (hg : g ∈ (run_scan I).dir_groups) :
    ∃ kv ∈ webDirBuckets I,
      g.dirs = kv.2.map WDir.path ∧ g.dir_sig = kv.1 ∧ 2 ≤ kv.2.length := by
  have := mem_dir_groups_raw hg
  rw [dirGroupsOf] at this
  rcases List.mem_map.1 this with ⟨kv, hkv, rfl⟩
  have hkv' := List.mem_filter.1 hkv
  refine ⟨kv, hkv'.1, rfl, rfl, ?_⟩
  have := hkv'.2
  simp only [Bool.not_eq_eq_eq_not, Bool.not_true, decide_eq_false_iff_not,
    Nat.not_lt] at this
  exact this

/-! ## C7 -/

/-- C7: when the root is missing or its subtree cannot be iterated at all,
run_scan returns an empty result with exactly one ErrorNote and zero
counters; run_scan is a total function, so no raw failure reaches the
caller. -/
theorem C7_scan_fatal_empty (I : ScanInput)
    (h : I.rootExists = false ∨ I.iterOk = false) :
    (run_scan I).file_groups = [] ∧ (run_scan I).dir_groups = [] ∧
    (run_scan I).dir_buckets = [] ∧ (run_scan I).errors.length = 1 ∧
    (run_scan I).candidate_files = 0 ∧ (run_scan I).scanned_files = 0 := by
  rcases h with h | h
  · rw [run_scan, if_pos (by simp [h])]
    exact ⟨rfl, rfl, rfl, rfl, rfl, rfl⟩
  · cases hr : I.rootExists with
    | false =>
        rw [run_scan, if_pos (by simp [hr])]
        exact ⟨rfl, rfl, rfl, rfl, rfl, rfl⟩
    | true =>
        rw [run_scan, if_neg (by simp [hr]), if_pos (by simp [h])]
        exact ⟨rfl, rfl, rfl, rfl, rfl, rfl⟩

/-- A root that does not exist. -/
def c7I : ScanInput := ⟨"/missing", false, true, [], []⟩

theorem C7_witness :
    (run_scan c7I).file_groups = [] ∧ (run_scan c7I).dir_groups = [] ∧
    (run_scan c7I).dir_buckets = [] ∧ (run_scan c7I).errors.length = 1 ∧
    (run_scan c7I).candidate_files = 0 ∧ (run_scan c7I).scanned_files = 0 :=
  C7_scan_fatal_empty c7I (Or.inl rfl)

/-! ## C2 -/

/-- Two readable media files whose byte sizes are unique in the tree. -/
def c2I : ScanInput :=
  ⟨"/r", true, true,
   [⟨"a.jpg", [1], true, true⟩, ⟨"b.jpg", [2, 3], true, true⟩], []⟩

/-- C2 (code bug): the "Remove singletons by size" loop erases only buckets
with `size() < 1` members — i.e. none — and the full-hash loop skips only
quick buckets with `size() < 1` members, so two files of unique sizes are
both quick-hashed and full-hashed: candidate_files and scanned_files
(hashedFileCount) both end at 2, where the claim requires no hashing and a
hashedFileCount of 0. -/
theorem C2_unique_sizes_still_hashed :
    (run_scan c2I).candidate_files = 2 ∧ (run_scan c2I).scanned_files = 2 := by
  exact ⟨by decide, by decide⟩

/-! ## C6 -/

/-- Two zero-byte media files under the root. -/
def c6I : ScanInput :=
  ⟨"/r", true, true,
   [⟨"a.jpg", [], true, true⟩, ⟨"b.jpg", [], true, true⟩], []⟩

/-- C6 counterexample: a file of size 0 bytes IS quick-hashed, full-hashed and
grouped — the two empty files of c6I are both counted by hashedFileCount and
form a FileGroup — refuting the claim that size-0 files are never hashed or
members of any FileGroup. -/
theorem C6_counterexample :
    (run_scan c6I).scanned_files = 2 ∧
    (run_scan c6I).file_groups = [⟨0, ["a.jpg", "b.jpg"]⟩] := by
  exact ⟨by decide, by decide⟩

/-- C6 (amended): a directory with zero in-scope descendant files is assigned
no signature bucket and never joins a DirectoryGroup; a file of size 0 bytes,
however, is hashed and grouped like any other candidate (the two empty files
of c6I are hashed and form a group). -/
theorem C6_empty_dir_excluded :
    (∀ (I : ScanInput) (d : WDir), (I.dirs.map WDir.path).Nodup → d ∈ I.dirs →
      d.files = [] →
      (∀ b ∈ (run_scan I).dir_buckets, d.path ∉ b.2) ∧
      (∀ g ∈ (run_scan I).dir_groups, d.path ∉ g.dirs)) ∧
    (run_scan c6I).scanned_files = 2 ∧
    (run_scan c6I).file_groups = [⟨0, ["a.jpg", "b.jpg"]⟩] := by
  refine ⟨?_, by decide, by decide⟩
  intro I d hnd hd hfe
  have hok : (d.iterOk && !(dirEntries (scanInfos I) d).isEmpty) = false := by
    simp [dirEntries, hfe]
  have key : ∀ kv ∈ webDirBuckets I, d.path ∉ kv.2.map WDir.path := by
    intro kv hkv hmem
    rcases List.mem_map.1 hmem with ⟨w, hw, hwp⟩
    have hbl := mem_webDirBuckets_sound (show (kv.1, kv.2) ∈ webDirBuckets I by
      simpa using hkv)
    rw [hbl] at hw
    have hw' := List.mem_filter.1 hw
    have hwd : w = d := List.inj_on_of_nodup_map hnd hw'.1 hd hwp
    rw [hwd] at hw'
    rw [Bool.and_eq_true, hok] at hw'
    exact Bool.noConfusion hw'.2.1
  constructor
  · intro b hb hmem
    obtain ⟨kv, hkv, rfl⟩ := mem_dir_buckets_raw hb
    exact key kv hkv hmem
  · intro g hg hmem
    obtain ⟨kv, hkv, hdirs, _, _⟩ := dir_group_dirs_sound hg
    rw [hdirs] at hmem
    exact key kv hkv hmem

/-- A scan whose only directory holds no media files. -/
def c6DirI : ScanInput := ⟨"/r", true, true, [], [⟨"/r/empty", true, []⟩]⟩

theorem C6_witness :
    (∀ b ∈ (run_scan c6DirI).dir_buckets, ("/r/empty" : String) ∉ b.2) ∧
    (∀ g ∈ (run_scan c6DirI).dir_groups, ("/r/empty" : String) ∉ g.dirs) :=
  C6_empty_dir_excluded.1 c6DirI ⟨"/r/empty", true, []⟩ (by decide) (by decide) rfl

/-! ## C9 -/

/-- Two identical files met in anti-lexical discovery order. -/
def c9I : ScanInput :=
  ⟨"/r", true, true,
   [⟨"b.jpg", [7], true, true⟩, ⟨"a.jpg", [7], true, true⟩], []⟩

/-- C9 counterexample: the web variant keeps group members in discovery
order — walking b.jpg before a.jpg yields the member list
["b.jpg", "a.jpg"], which is not in ascending lexical order. -/
theorem C9_counterexample :
    (run_scan c9I).file_groups.map FileGroup.paths = [["b.jpg", "a.jpg"]] ∧
    ¬ List.Sorted pathLe (["b.jpg", "a.jpg"] : List String) := by
  constructor
  · decide
  · intro h
    have := List.rel_of_sorted_cons h "a.jpg" (by simp)
    exact absurd this (by decide)

/-- C9 (amended): the web variant does order the report by size descending
with ties by member count descending, but member paths stay in discovery
order; the CLI variant sorts each group's member paths ascending and orders
its report by member count descending, then size descending, then first
path. -/
theorem C9_report_order :
    (∀ I : ScanInput, List.Sorted fgRel (run_scan I).file_groups) ∧
    (∀ (input : List CFile) (g : FileGroup), g ∈ (cliReport input).1 →
      List.Sorted pathLe g.paths) ∧
    (∀ input : List CFile, List.Sorted cliFgRel (cliReport input).1) := by
  refine ⟨?_, ?_, ?_⟩
  · intro I
    cases hr : I.rootExists with
    | false =>
        rw [run_scan, if_pos (by simp [hr])]
        exact List.sorted_nil
    | true =>
        cases hi : I.iterOk with
        | false =>
            rw [run_scan, if_neg (by simp [hr]), if_pos (by simp [hi])]
            exact List.sorted_nil
        | true =>
            rw [run_scan_file_groups hr hi]
            exact List.sorted_insertionSort fgRel _
  · intro input g hg
    have hg1 : g ∈ (cliFileGroupsRaw (gather input).1).1 := by
      have : (cliReport input).1 =
          List.insertionSort cliFgRel (cliFileGroupsRaw (gather input).1).1 := rfl
      rw [this] at hg
      exact (List.perm_insertionSort cliFgRel _).mem_iff.1 hg
    rw [cliFileGroupsRaw] at hg1
    simp only at hg1
    rcases List.mem_flatten.1 hg1 with ⟨gl, hgl, hgm⟩
    rcases List.mem_map.1 hgl with ⟨pr, hpr, rfl⟩
    rcases List.mem_map.1 hpr with ⟨kv, _, rfl⟩
    by_cases h1 : kv.2.length < 2
    · rw [if_pos h1] at hgm
      cases hgm
    · rw [if_neg h1] at hgm
      by_cases h2 : 2 ≤ (confirmOne kv.2).1.length
      · rw [if_pos h2] at hgm
        have : g = ⟨kv.1.1,
            List.insertionSort pathLe ((confirmOne kv.2).1.map FileRec.path)⟩ := by
          simpa using hgm
        rw [this]
        exact List.sorted_insertionSort _ _
      · rw [if_neg h2] at hgm
        cases hgm
  · intro input
    have : (cliReport input).1 =
        List.insertionSort cliFgRel (cliFileGroupsRaw (gather input).1).1 := rfl
    rw [this]
    exact List.sorted_insertionSort cliFgRel _

/-- CLI input mirroring c9I. -/
def c9CliInput : List CFile :=
  [⟨"b.jpg", [7], true, true, []⟩, ⟨"a.jpg", [7], true, true, []⟩]

theorem C9_witness :
    (⟨1, ["a.jpg", "b.jpg"]⟩ : FileGroup) ∈ (cliReport c9CliInput).1 ∧
    List.Sorted pathLe (["a.jpg", "b.jpg"] : List String) :=
  ⟨by decide,
   C9_report_order.2.1 c9CliInput ⟨1, ["a.jpg", "b.jpg"]⟩ (by decide)⟩

/-! ## C3 -/

/-- C3: directory signatures are iteration-order independent. Permuting the
order in which a directory's recursive walk yields its files permutes the
gathered `(relpath, size, hash)` tuples, which are sorted by the total
antisymmetric order `tupLe` before folding, so the web structural signature
is unchanged; likewise the CLI digest depends only on the multiset of
accumulated `(size, hash)` items (with the counts they determine), not on
the order the walk appended them. -/
theorem C3_signature_perm_invariant :
    (∀ (infos : List (String × Nat × Nat)) (d1 d2 : WDir),
      d1.files.Perm d2.files →
      webDirSig (dirEntries infos d1) = webDirSig (dirEntries infos d2)) ∧
    (∀ ds1 ds2 : DirStats, ds1.items.Perm ds2.items →
      ds1.file_count = ds2.file_count → ds1.total_bytes = ds2.total_bytes →
      cliDigest ds1 = cliDigest ds2) := by
  constructor
  · intro infos d1 d2 hperm
    have hperm2 : (dirEntries infos d1).Perm (dirEntries infos d2) :=
      hperm.filterMap _
    rw [webDirSig, webDirSig, insertionSort_eq_of_perm tupLe hperm2]
  · intro ds1 ds2 hperm hfc htb
    rw [cliDigest, cliDigest, hfc, htb, insertionSort_eq_of_perm pairLe hperm]

/-- Two directories listing the same two files in opposite walk order. -/
def c3e1 : WDirEntry := ⟨"b.jpg", ⟨"/r/d/b.jpg", [9], true, true⟩⟩

def c3e2 : WDirEntry := ⟨"a.jpg", ⟨"/r/d/a.jpg", [8], true, true⟩⟩

def c3d1 : WDir := ⟨"/r/d", true, [c3e1, c3e2]⟩

def c3d2 : WDir := ⟨"/r/d", true, [c3e2, c3e1]⟩

def c3s1 : DirStats := ⟨[(1, 2), (3, 4)], 4, 2, 0⟩

def c3s2 : DirStats := ⟨[(3, 4), (1, 2)], 4, 2, 0⟩

theorem C3_witness :
    c3d1.files.Perm c3d2.files ∧
    webDirSig (dirEntries [] c3d1) = webDirSig (dirEntries [] c3d2) ∧
    cliDigest c3s1 = cliDigest c3s2 :=
  ⟨List.Perm.swap c3e2 c3e1 [],
   C3_signature_perm_invariant.1 [] c3d1 c3d2 (List.Perm.swap c3e2 c3e1 []),
   C3_signature_perm_invariant.2 c3s1 c3s2 (List.Perm.swap (3, 4) (1, 2) [])
     rfl rfl⟩

/-! ## C5 -/

/-- One single-file directory, as the web variant signs it. -/
def c5Entry : String × Nat × Nat := ("x.jpg", 3, 5)

/-- C5 counterexample: the structural (web) signature of a directory holding
one file folds only the sorted tuple — it does NOT fold fileCount and
totalBytes first — so it differs from the spec's fold at this input. -/
theorem C5_counterexample :
    webDirSig [c5Entry] ≠ specFoldDigest 1 3 [c5Entry] := by
  decide

theorem insertionSort_map_emb (items : List (Nat × Nat)) :
    List.insertionSort tupLe (items.map (fun p => ("", p.1, p.2)))
      = (List.insertionSort pairLe items).map (fun p => ("", p.1, p.2)) := by
  exact @List.eq_of_perm_of_sorted _ tupLe _ _ _
    ((List.perm_insertionSort tupLe _).trans
      (((List.perm_insertionSort pairLe items).map _).symm))
    (List.sorted_insertionSort tupLe _)
    (List.Pairwise.map _ (fun a b h => Or.inr ⟨rfl, h⟩)
      (List.sorted_insertionSort pairLe items))

/-- C5 (amended): only the content-multiset (CLI) digest follows the spec's
fold — fileCount, then totalBytes, then each sorted tuple, with all keys
empty; the structural (web) signature folds only the sorted tuples, without
the two counters (witnessed by the counterexample above). -/
theorem C5_cli_digest_matches_spec_fold (ds : DirStats) :
    cliDigest ds =
      specFoldDigest ds.file_count ds.total_bytes
        (ds.items.map (fun p => ("", p.1, p.2))) := by
  rw [cliDigest, specFoldDigest, insertionSort_map_emb, List.foldl_map]
  rfl

/-! ## C10 -/

/-- The bookkeeping invariant of `DirStats`. -/
def statsInv (ds : DirStats) : Prop :=
  ds.file_count = ds.items.length ∧
  ds.total_bytes = (ds.items.map Prod.fst).sum

theorem statsInv_add {ds : DirStats} (h : statsInv ds) (sz hh : Nat) :
    statsInv (ds.add sz hh) := by
  obtain ⟨h1, h2⟩ := h
  constructor
  · simp [DirStats.add, h1]
  · simp [DirStats.add, h2]

theorem updStats_inv {m : List (String × DirStats)}
    (hm : ∀ e ∈ m, statsInv e.2) (d : String) (sz hh : Nat) :
    ∀ e ∈ updStats m d sz hh, statsInv e.2 := by
  induction m with
  | nil =>
      intro e he
      rw [updStats] at he
      have he2 : e = (d, DirStats.add {} sz hh) := by simpa using he
      rw [he2]
      exact statsInv_add ⟨rfl, rfl⟩ sz hh
  | cons e0 rest ih =>
      intro e he
      obtain ⟨d0, ds0⟩ := e0
      rw [updStats] at he
      by_cases hd : d = d0
      · rw [if_pos hd] at he
        rcases List.mem_cons.1 he with he | he
        · rw [he]
          exact statsInv_add (hm (d0, ds0) (by simp)) sz hh
        · exact hm e (by simp [he])
      · rw [if_neg hd] at he
        rcases List.mem_cons.1 he with he | he
        · rw [he]
          exact hm (d0, ds0) (by simp)
        · exact ih (fun e he' => hm e (by simp [he'])) e he

theorem accumFile_inv {m : List (String × DirStats)}
    (hm : ∀ e ∈ m, statsInv e.2) (fr : FileRec) :
    ∀ e ∈ accumFile m fr, statsInv e.2 := by
  rw [accumFile]
  have H : ∀ (l : List String) (m : List (String × DirStats)),
      (∀ e ∈ m, statsInv e.2) →
      ∀ e ∈ l.foldl (fun m d => updStats m d fr.size fr.hash) m, statsInv e.2 := by
    intro l
    induction l with
    | nil => intro m hm e he; exact hm e he
    | cons d l ih =>
        intro m hm e he
        exact ih _ (updStats_inv hm d fr.size fr.hash) e (by simpa using he)
  exact H fr.dirs m hm

theorem dirStatsOf_inv (files : List FileRec) :
    ∀ e ∈ dirStatsOf files, statsInv e.2 := by
  rw [dirStatsOf]
  have H : ∀ (l : List FileRec) (m : List (String × DirStats)),
      (∀ e ∈ m, statsInv e.2) →
      ∀ e ∈ l.foldl (fun m fr => if fr.ok then accumFile m fr else m) m,
        statsInv e.2 := by
    intro l
    induction l with
    | nil => intro m hm e he; exact hm e he
    | cons fr l ih =>
        intro m hm e he
        by_cases hok : fr.ok
        · rw [List.foldl_cons, if_pos hok] at he
          exact ih _ (accumFile_inv hm fr) e he
        · rw [List.foldl_cons, if_neg hok] at he
          exact ih _ hm e he
  exact H files [] (by simp)

/-- C10: after the per-file accumulation phase of the content-multiset
variant, every directory's DirStats satisfies
`file_count = items.length` and `total_bytes = Σ (size components of items)`,
and each single-file insertion into an ancestor's DirStats preserves the
invariant. -/
theorem C10_dirstats_invariant :
    (∀ (files : List FileRec) (e : String × DirStats), e ∈ dirStatsOf files →
      e.2.file_count = e.2.items.length ∧
      e.2.total_bytes = (e.2.items.map Prod.fst).sum) ∧
    (∀ (ds : DirStats) (sz h : Nat),
      ds.file_count = ds.items.length ∧
      ds.total_bytes = (ds.items.map Prod.fst).sum →
      (ds.add sz h).file_count = (ds.add sz h).items.length ∧
      (ds.add sz h).total_bytes = ((ds.add sz h).items.map Prod.fst).sum) := by
  constructor
  · intro files e he
    exact dirStatsOf_inv files e he
  · intro ds sz h hinv
    exact statsInv_add hinv sz h

/-- One media file two directories deep. -/
def c10File : FileRec :=
  ⟨"/r/a/x.jpg", [5, 6], true, 2, 7, true, ["/r/a", "/r"]⟩

/-! ## C4 -/

theorem foldTuple_lt (h : Nat) (t : String × Nat × Nat) (hh : h < M64) :
    foldTuple h t < M64 := by
  unfold foldTuple fnvUpdateU64
  exact fnvUpdate_lt _ _ (fnvUpdate_lt _ _ (fnvUpdate_lt _ _ hh))

theorem webDirSig_lt (entries : List (String × Nat × Nat)) :
    webDirSig entries < M64 := by
  rw [webDirSig]
  have H : ∀ (l : List (String × Nat × Nat)) (h : Nat), h < M64 →
      l.foldl foldTuple h < M64 := by
    intro l
    induction l with
    | nil => intro h hh; exact hh
    | cons t l ih => intro h hh; exact ih _ (foldTuple_lt h t hh)
  exact H _ fnvOffset (by norm_num [fnvOffset, M64])

/-- The structural digest of a single-file directory (file size 1, full hash
5) whose one file sits at a relative path of `n` letters. -/
def sigOfKeyLen (n : Nat) : Nat :=
  webDirSig [(String.mk (List.replicate n 'a'), 1, 5)]

/-- C4 counterexample: the structural signature is a 64-bit digest, so by
pigeonhole the universal statement "same contents at different relative paths
⇒ different digests" is false: among the 2^64 + 1 single-file directories
whose identical file sits at relative paths of 0, 1, …, 2^64 letters, two
distinct ones share a digest (and directory grouping compares only digests). -/
theorem C4_counterexample :
    ¬ (∀ k1 k2 : String, k1 ≠ k2 →
        webDirSig [(k1, 1, 5)] ≠ webDirSig [(k2, 1, 5)]) := by
  intro H
  obtain ⟨i, j, hij, hfe⟩ :=
    Fintype.exists_ne_map_eq_of_card_lt
      (fun i : Fin (M64 + 1) => (⟨sigOfKeyLen i.val, webDirSig_lt _⟩ : Fin M64))
      (by rw [Fintype.card_fin, Fintype.card_fin]; exact Nat.lt_succ_self M64)
  have hkeys : String.mk (List.replicate i.val 'a')
      ≠ String.mk (List.replicate j.val 'a') := by
    intro he
    apply hij
    have hd : List.replicate i.val 'a' = List.replicate j.val 'a' := by
      have := congrArg String.data he
      simpa using this
    have hlen := congrArg List.length hd
    simp only [List.length_replicate] at hlen
    exact Fin.ext hlen
  exact H _ _ hkeys (congrArg Fin.val hfe)

/-- C4 (amended): in structural (web) mode, every directory of a
DirectoryGroup has the group's signature — so two directories whose
structural digests differ (the normal case for different relative layouts)
are never grouped; the grouping compares only the 64-bit digest, and
collisions exist (see the counterexample). In content-multiset (CLI) mode,
two distinct directories whose accumulated item multisets coincide always
receive equal digests and are grouped together. -/
theorem C4_directory_modes :
    (∀ (I : ScanInput) (g : DirGroup) (d : WDir),
      (I.dirs.map WDir.path).Nodup → g ∈ (run_scan I).dir_groups →
      d ∈ I.dirs → d.path ∈ g.dirs →
      webDirSig (dirEntries (scanInfos I) d) = g.dir_sig) ∧
    (∀ (stats : List (String × DirStats)) (d1 d2 : String) (s1 s2 : DirStats),
      (d1, s1) ∈ stats → (d2, s2) ∈ stats → d1 ≠ d2 →
      statsInv s1 → statsInv s2 → s1.items.Perm s2.items → s1.items ≠ [] →
      ∃ g ∈ cliDirGroups stats, d1 ∈ g.dirs ∧ d2 ∈ g.dirs) := by
  constructor
  · intro I g d hnd hg hd hmem
    obtain ⟨kv, hkv, hdirs, hsig, _⟩ := dir_group_dirs_sound hg
    rw [hdirs] at hmem
    rcases List.mem_map.1 hmem with ⟨w, hw, hwp⟩
    have hbl := mem_webDirBuckets_sound
      (show (kv.1, kv.2) ∈ webDirBuckets I by simpa using hkv)
    rw [hbl] at hw
    have hw' := List.mem_filter.1 hw
    have hwd : w = d := List.inj_on_of_nodup_map hnd hw'.1 hd hwp
    have h2 := hw'.2
    rw [Bool.and_eq_true] at h2
    have := of_decide_eq_true h2.2
    rw [hwd] at this
    rw [this, hsig]
  · intro stats d1 d2 s1 s2 h1 h2 hdne hi1 hi2 hperm hne
    have hfc : s1.file_count = s2.file_count := by
      rw [hi1.1, hi2.1, hperm.length_eq]
    have htb : s1.total_bytes = s2.total_bytes := by
      rw [hi1.2, hi2.2, (hperm.map Prod.fst).sum_eq]
    have hdig : cliDigest s1 = cliDigest s2 := by
      rw [cliDigest, cliDigest, hfc, htb, insertionSort_eq_of_perm pairLe hperm]
    have hfc0 : s1.file_count ≠ 0 := by
      rw [hi1.1]
      exact fun h0 => hne (List.length_eq_zero.1 h0)
    have hok1 : (!(s1.file_count == 0)) = true := by
      simp [hfc0]
    have hok2 : (!(s2.file_count == 0)) = true := by
      simp [← hfc, hfc0]
    set k := cliDigest s1 with hk
    have hm1 : (d1, s1) ∈ lk (cliDirBuckets stats) k := by
      rw [cliDirBuckets, lk_buildRec, List.mem_filter]
      exact ⟨h1, by simp [hok1]⟩
    have hm2 : (d2, s2) ∈ lk (cliDirBuckets stats) k := by
      rw [cliDirBuckets, lk_buildRec, List.mem_filter]
      refine ⟨h2, ?_⟩
      simp only [Bool.and_eq_true]
      exact ⟨hok2, by simp [← hdig]⟩
    have hvne : lk (cliDirBuckets stats) k ≠ [] :=
      fun he => by simp [he] at hm1
    have hkv : (k, lk (cliDirBuckets stats) k) ∈ cliDirBuckets stats :=
      lk_mem _ _ hvne
    have hpair_ne : (d1, s1) ≠ (d2, s2) := by
      intro he
      exact hdne (congrArg Prod.fst he)
    have hlen : 2 ≤ (lk (cliDirBuckets stats) k).length :=
      two_le_length_of_mem hm1 hm2 hpair_ne
    refine ⟨⟨((lk (cliDirBuckets stats) k).headI).2.file_count,
             ((lk (cliDirBuckets stats) k).headI).2.total_bytes,
             List.insertionSort pathLe ((lk (cliDirBuckets stats) k).map Prod.fst)⟩,
           ?_, ?_, ?_⟩
    · rw [cliDirGroups]
      refine List.mem_map.2 ⟨(k, lk (cliDirBuckets stats) k), ?_, rfl⟩
      rw [List.mem_filter]
      exact ⟨hkv, by simpa using Nat.not_lt.2 hlen⟩
    · exact (List.perm_insertionSort pathLe _).mem_iff.2
        (List.mem_map.2 ⟨(d1, s1), hm1, rfl⟩)
    · exact (List.perm_insertionSort pathLe _).mem_iff.2
        (List.mem_map.2 ⟨(d2, s2), hm2, rfl⟩)

/-- Two directories with an identical single file at the same relative path
(web variant: they form a structural group). -/
def c4d1 : WDir := ⟨"/r/c", true, [⟨"x.jpg", ⟨"/r/c/x.jpg", [7], true, true⟩⟩]⟩

def c4d2 : WDir := ⟨"/r/d", true, [⟨"x.jpg", ⟨"/r/d/x.jpg", [7], true, true⟩⟩]⟩

def c4I : ScanInput := ⟨"/r", true, true, [], [c4d1, c4d2]⟩

def c4g : DirGroup :=
  ⟨1, webDirSig (dirEntries (scanInfos c4I) c4d1), ["/r/c", "/r/d"]⟩

/-- Content-multiset stats of two directories holding the same single file
content at different names. -/
def c4stats : List (String × DirStats) :=
  [("/c", ⟨[(1, 9)], 1, 1, 0⟩), ("/d", ⟨[(1, 9)], 1, 1, 0⟩)]

/-! ## C8 -/

theorem processBucket_infos (sz : Nat) (paths : List MFile) :
    (processBucket sz paths).infos =
      ((bucketBfInput paths).filter (fun f => f.readOk)).map
        (fun f => (f.path, sz, fullHash f.content)) := rfl

theorem processBucket_errs (sz : Nat) (paths : List MFile) :
    (processBucket sz paths).errs =
      ((paths.filter (fun f => !quickOk f)).map quickErrNote)
        ++ (((bucketBfInput paths).filter (fun f => !f.readOk)).map
              (fun f => (⟨f.path, "full hash: cannot open"⟩ : ErrorNote)))
        ++ bucketCmpErrs paths := rfl

theorem run_scan_errors {I : ScanInput}
    (hr : I.rootExists = true) (hi : I.iterOk = true) :
    (run_scan I).errors =
      ((I.files.filter (fun f => !f.sizeOk)).map
          (fun f => (⟨f.path, "filesize error"⟩ : ErrorNote)))
        ++ ((webOuts I).map BucketOut.errs).flatten
        ++ (I.dirs.map (dirErrs (scanInfos I))).flatten := by
  rw [run_scan, if_neg (by simp [hr]), if_neg (by simp [hi])]

/-- Every `file_infos` entry belongs to a readable walked file. -/
theorem scanInfos_sound {I : ScanInput} {p : String} {sz fh : Nat}
    (h : (p, sz, fh) ∈ scanInfos I) :
    ∃ x ∈ I.files, x.path = p ∧ quickOk x = true := by
  rw [scanInfos, List.mem_flatten] at h
  obtain ⟨il, hil, hmem⟩ := h
  rcases List.mem_map.1 hil with ⟨out, hout, rfl⟩
  rcases List.mem_map.1 hout with ⟨kv, hkv, rfl⟩
  rw [processBucket_infos] at hmem
  rcases List.mem_map.1 hmem with ⟨x, hx, hxe⟩
  have hx' := List.mem_filter.1 hx
  obtain ⟨hxb, hq⟩ := mem_bfInput_sound hx'.1
  have hbl := mem_webBySize_sound
    (show (kv.1, kv.2) ∈ webBySize I by simpa using hkv)
  rw [hbl] at hxb
  have hxp : x.path = p := congrArg (fun t => t.1) hxe
  exact ⟨x, (List.mem_filter.1 hxb).1, hxp, hq⟩

theorem lookupInfo_some {infos : List (String × Nat × Nat)} {p : String}
    {v : Nat × Nat} (h : lookupInfo infos p = some v) :
    ∃ sz fh, (p, sz, fh) ∈ infos := by
  induction infos with
  | nil => cases h
  | cons e rest ih =>
      obtain ⟨q, sz, fh⟩ := e
      by_cases hp : p = q
      · exact ⟨sz, fh, by simp [hp]⟩
      · simp only [lookupInfo, if_neg hp] at h
        obtain ⟨sz', fh', hmem⟩ := ih h
        exact ⟨sz', fh', by simp [hmem]⟩

theorem filterMap_drop_none {α β : Type} (g : α → Option β) (p : α → Bool)
    (l : List α) (h : ∀ x ∈ l, p x = false → g x = none) :
    l.filterMap g = (l.filter p).filterMap g := by
  induction l with
  | nil => rfl
  | cons a l ih =>
      have ih' := ih (fun x hx => h x (by simp [hx]))
      by_cases hp : p a = true
      · rw [List.filter_cons_of_pos hp, List.filterMap_cons, List.filterMap_cons, ih']
      · have hga := h a (by simp) (by simpa using hp)
        rw [List.filter_cons_of_neg (by simpa using hp), List.filterMap_cons, hga,
          ih']

/-- A file whose flags make every hashing attempt fail contributes no tuple to
any directory's gathered entries: the entries equal those computed with the
file's walk entries removed. -/
theorem dirEntries_exclude {I : ScanInput} {f : MFile}
    (hnd : (I.files.map MFile.path).Nodup) (hf : f ∈ I.files)
    (hbad : f.sizeOk = false ∨ f.readOk = false) (d : WDir) :
    dirEntries (scanInfos I) d =
      dirEntries (scanInfos I)
        ⟨d.path, d.iterOk, d.files.filter (fun e => e.file ≠ f)⟩ := by
  show d.files.filterMap _ = (d.files.filter _).filterMap _
  apply filterMap_drop_none
  intro e _ hpe
  have hef : e.file = f := by simpa using hpe
  have hlk : lookupInfo (scanInfos I) e.file.path = none := by
    cases hcase : lookupInfo (scanInfos I) e.file.path with
    | none => rfl
    | some v =>
        exfalso
        obtain ⟨sz, fh, hmem⟩ := lookupInfo_some hcase
        obtain ⟨x, hx, hxp, hq⟩ := scanInfos_sound hmem
        have hxf : x = f := List.inj_on_of_nodup_map hnd hx hf (by rw [hxp, hef])
        rw [hxf] at hq
        rcases hbad with hb | hb <;> simp [quickOk, hb] at hq
  rw [hef] at hlk
  rcases hbad with hb | hb
  · simp [dirEntryOut, hlk, hef, hb]
  · by_cases hs : f.sizeOk = true <;> simp [dirEntryOut, hlk, hef, hb, hs]

/-- A failing candidate always leaves an ErrorNote carrying its path. -/
theorem error_note_exists {I : ScanInput} {f : MFile}
    (hr : I.rootExists = true) (hi : I.iterOk = true)
    (hf : f ∈ I.files) (hbad : f.sizeOk = false ∨ f.readOk = false) :
    ∃ e ∈ (run_scan I).errors, e.path = f.path := by
  rw [run_scan_errors hr hi]
  by_cases hs : f.sizeOk = true
  · have hro : f.readOk = false := by
      rcases hbad with hb | hb
      · rw [hb] at hs; cases hs
      · exact hb
    obtain ⟨hkv, hlk⟩ := mem_webBySize_of hf hs
    refine ⟨quickErrNote f, ?_, by simp [quickErrNote]⟩
    apply List.mem_append_left
    apply List.mem_append_right
    rw [List.mem_flatten]
    refine ⟨(processBucket f.size
        (lk (buildRec MFile.size MFile.sizeOk I.files) f.size)).errs, ?_, ?_⟩
    · exact List.mem_map.2 ⟨processBucket f.size
          (lk (buildRec MFile.size MFile.sizeOk I.files) f.size),
        List.mem_map.2 ⟨(f.size, lk (buildRec MFile.size MFile.sizeOk I.files) f.size),
          hkv, rfl⟩, rfl⟩
    · rw [processBucket_errs]
      apply List.mem_append_left
      apply List.mem_append_left
      refine List.mem_map.2 ⟨f, List.mem_filter.2 ⟨hlk, ?_⟩, rfl⟩
      simp [quickOk, hro]
  · have hb : f.sizeOk = false := by simpa using hs
    refine ⟨⟨f.path, "filesize error"⟩, ?_, rfl⟩
    apply List.mem_append_left
    apply List.mem_append_left
    exact List.mem_map.2 ⟨f, List.mem_filter.2 ⟨hf, by simp [hb]⟩, rfl⟩

/-- C8: for every candidate file whose size query or open/read fails, an
ErrorNote carrying its path is appended, the file appears in no FileGroup,
it contributes to no directory's signature entries (the gathered tuples
equal those computed with its walk entries removed), and the scan still
completes covering the remaining files: every remaining readable
byte-identical pair is still grouped. -/
theorem C8_entry_errors_recoverable (I : ScanInput) (f : MFile)
    (hr : I.rootExists = true) (hi : I.iterOk = true)
    (hnd : (I.files.map MFile.path).Nodup) (hf : f ∈ I.files)
    (hbad : f.sizeOk = false ∨ f.readOk = false) :
    (∃ e ∈ (run_scan I).errors, e.path = f.path) ∧
    (∀ g ∈ (run_scan I).file_groups, f.path ∉ g.paths) ∧
    (∀ d ∈ I.dirs, dirEntries (scanInfos I) d =
        dirEntries (scanInfos I)
          ⟨d.path, d.iterOk, d.files.filter (fun e => e.file ≠ f)⟩) ∧
    (∀ a b : MFile, a ∈ I.files → b ∈ I.files → a.path ≠ b.path →
      a.content = b.content → flagsOk a → flagsOk b →
      ∃ g ∈ (run_scan I).file_groups, a.path ∈ g.paths ∧ b.path ∈ g.paths) := by
  refine ⟨error_note_exists hr hi hf hbad, ?_, ?_, ?_⟩
  · intro g hg hmem
    obtain ⟨_, L, hpaths, hmemL, _⟩ := scan_group_sound hg
    rw [hpaths] at hmem
    rcases List.mem_map.1 hmem with ⟨x, hx, hxp⟩
    obtain ⟨hxf, hq⟩ := hmemL x hx
    have hxeq : x = f := List.inj_on_of_nodup_map hnd hxf hf hxp
    rw [hxeq] at hq
    rcases hbad with hb | hb <;> simp [quickOk, hb] at hq
  · intro d _
    exact dirEntries_exclude hnd hf hbad d
  · intro a b ha hb hab hc hfa hfb
    exact grouped_of_equal_content hr hi ha hb hab hc hfa hfb

/-- One unreadable file next to two readable duplicates. -/
def c8bad : MFile := ⟨"bad.jpg", [1], true, false⟩

def c8I : ScanInput :=
  ⟨"/r", true, true,
   [⟨"a.jpg", [3], true, true⟩, ⟨"b.jpg", [3], true, true⟩, c8bad],
   [⟨"/r", true, [⟨"bad.jpg", c8bad⟩]⟩]⟩

theorem C8_witness :
    (∃ e ∈ (run_scan c8I).errors, e.path = "bad.jpg") ∧
    (∀ g ∈ (run_scan c8I).file_groups, ("bad.jpg" : String) ∉ g.paths) ∧
    (∀ d ∈ c8I.dirs, dirEntries (scanInfos c8I) d =
        dirEntries (scanInfos c8I)
          ⟨d.path, d.iterOk, d.files.filter (fun e => e.file ≠ c8bad)⟩) ∧
    (∀ a b : MFile, a ∈ c8I.files → b ∈ c8I.files → a.path ≠ b.path →
      a.content = b.content → flagsOk a → flagsOk b →
      ∃ g ∈ (run_scan c8I).file_groups, a.path ∈ g.paths ∧ b.path ∈ g.paths) :=
  C8_entry_errors_recoverable c8I c8bad rfl rfl (by decide) (by decide)
    (Or.inr rfl)

theorem C4_witness :
    (c4g ∈ (run_scan c4I).dir_groups ∧
      webDirSig (dirEntries (scanInfos c4I) c4d1) = c4g.dir_sig) ∧
    (∃ g ∈ cliDirGroups c4stats, ("/c" : String) ∈ g.dirs ∧
      ("/d" : String) ∈ g.dirs) :=
  ⟨⟨by decide,
    C4_directory_modes.1 c4I c4g c4d1 (by decide) (by decide) (by decide)
      (by decide)⟩,
   C4_directory_modes.2 c4stats "/c" "/d" ⟨[(1, 9)], 1, 1, 0⟩ ⟨[(1, 9)], 1, 1, 0⟩
     (by decide) (by decide) (by decide) ⟨rfl, rfl⟩ ⟨rfl, rfl⟩
     (List.Perm.refl _) (by decide)⟩

theorem C10_witness :
    (("/r/a", (⟨[(2, 7)], 2, 1, 0⟩ : DirStats)) ∈ dirStatsOf [c10File] ∧
      ((⟨[(2, 7)], 2, 1, 0⟩ : DirStats).file_count
          = (⟨[(2, 7)], 2, 1, 0⟩ : DirStats).items.length ∧
        (⟨[(2, 7)], 2, 1, 0⟩ : DirStats).total_bytes
          = ((⟨[(2, 7)], 2, 1, 0⟩ : DirStats).items.map Prod.fst).sum)) ∧
    ((⟨[], 0, 0, 0⟩ : DirStats).add 2 7).file_count
        = ((⟨[], 0, 0, 0⟩ : DirStats).add 2 7).items.length :=
  ⟨⟨by decide,
    C10_dirstats_invariant.1 [c10File] ("/r/a", ⟨[(2, 7)], 2, 1, 0⟩) (by decide)⟩,
   (C10_dirstats_invariant.2 ⟨[], 0, 0, 0⟩ 2 7 ⟨rfl, rfl⟩).1⟩

end Dedupe
